import Mathlib

/-!
# skynet_timer.c : the hierarchical timing wheel

A shallow embedding of `skynet-src/skynet_timer.c`.

* `uint32_t` values are natural numbers kept below `2^32`; every addition that can
  overflow in the C code carries an explicit `% 4294967296`.
* A `struct link_list` is embedded twice.  In the wheel it is the list of nodes reachable
  from `head.next` (namespace `SkynetTimer`).  In namespace `SkynetTimer.Ptr` it is embedded
  with explicit `next` links, a sentinel head and a `tail` reference, and the list view is
  shown to be its abstraction.
* The spin lock (`LOCK` / `UNLOCK`) is not part of the sequential state.
* `skynet_context_push` and `skynet_free` are collaborators: each call made by
  `dispatch_list` is recorded, in order, as a `dispatch` record.
-/

namespace SkynetTimer

/-! ## Constants -/

def TIME_NEAR_SHIFT : Nat := 8
def TIME_NEAR : Nat := 1 <<< TIME_NEAR_SHIFT
def TIME_LEVEL_SHIFT : Nat := 6
def TIME_LEVEL : Nat := 1 <<< TIME_LEVEL_SHIFT
def TIME_NEAR_MASK : Nat := TIME_NEAR - 1
def TIME_LEVEL_MASK : Nat := TIME_LEVEL - 1

/-- Number of values of a `uint32_t`. -/
def UINT32_SIZE : Nat := 4294967296

/-- Number of values of a `uint64_t`. -/
def UINT64_SIZE : Nat := 18446744073709551616

/-! ## Data model -/

/-- The payload `struct timer_event`, stored right behind a node. -/
structure timer_event where
  handle : Nat
  session : Int
deriving DecidableEq, Repr

/-- A `struct timer_node` together with the payload copied behind it by `timer_add`.
The `next` link is the position in the list that holds the node. -/
structure timer_node where
  expire : Nat
  event : timer_event
deriving DecidableEq, Repr

/-- A `struct link_list`, seen as the chain of nodes starting at `head.next`. -/
abbrev link_list := List timer_node

/-- The `struct timer` (without the lock). -/
structure timer where
  near : Nat → link_list
  t : Nat → Nat → link_list
  time : Nat
  current : Nat
  starttime : Nat
  current_point : Nat
  origin_point : Nat

/-- The `struct skynet_message` built by `dispatch_list` and `skynet_timeout`; its `data`
field is always `NULL` and its `sz` field the constant `PTYPE_RESPONSE << HANDLE_REMOTE_SHIFT`. -/
structure skynet_message where
  source : Nat
  session : Int
deriving DecidableEq, Repr

/-- One iteration of the `dispatch_list` loop: `skynet_context_push (handle, message)`
followed by `skynet_free (freed)`. -/
structure dispatch where
  handle : Nat
  message : skynet_message
  freed : timer_node
deriving DecidableEq, Repr

/-! ## Bucket list -/

/-- `link_clear`: returns the chain that started at `head.next` and the emptied list. -/
def link_clear (list : link_list) : List timer_node × link_list :=
  (list, [])

/-- `link`: the node becomes the last element. -/
def link (list : link_list) (node : timer_node) : link_list :=
  list ++ [node]

/-! ## Insertion -/

/-- The `for (i = 0; i < 3; i++)` loop of `add_node`; the first argument counts the
iterations that remain, the result is the final `i`. -/
def add_node_loop (time current_time : Nat) : Nat → Nat → Nat → Nat
  | 0, i, _ => i
  | fuel + 1, i, mask =>
    if (time ||| (mask - 1)) = (current_time ||| (mask - 1)) then i
    else add_node_loop time current_time fuel (i + 1) ((mask <<< TIME_LEVEL_SHIFT) % UINT32_SIZE)

/-- The function `add_node`. -/
def add_node (T : timer) (node : timer_node) : timer :=
  let time := node.expire
  let current_time := T.time
  if (time ||| TIME_NEAR_MASK) = (current_time ||| TIME_NEAR_MASK) then
    { T with near := Function.update T.near (time &&& TIME_NEAR_MASK)
                      (link (T.near (time &&& TIME_NEAR_MASK)) node) }
  else
    let i := add_node_loop time current_time 3 0 (TIME_NEAR <<< TIME_LEVEL_SHIFT)
    let idx := (time >>> (TIME_NEAR_SHIFT + i * TIME_LEVEL_SHIFT)) &&& TIME_LEVEL_MASK
    { T with t := Function.update T.t i (Function.update (T.t i) idx (link (T.t i idx) node)) }

/-- The function `timer_add`: `time` is a C `int`, the sum is taken in `uint32_t`. -/
def timer_add (T : timer) (arg : timer_event) (time : Int) : timer :=
  add_node T ⟨((time + (T.time : Int)) % (UINT32_SIZE : Int)).toNat, arg⟩

/-! ## Cascade -/

/-- The function `move_list`: the bucket is cleared, then its nodes are reinserted front to back. -/
def move_list (T : timer) (level idx : Nat) : timer :=
  let r := link_clear (T.t level idx)
  let T1 := { T with t := Function.update T.t level (Function.update (T.t level) idx r.2) }
  r.1.foldl add_node T1

/-- The `while` loop of `timer_shift`.  The first argument bounds the number of iterations;
the result is the bucket handed to `move_list`, if any. -/
def timer_shift_loop (ct : Nat) : Nat → Nat → Nat → Nat → Option (Nat × Nat)
  | 0, _, _, _ => none
  | fuel + 1, mask, time, i =>
    if ct &&& (mask - 1) = 0 then
      let idx := time &&& TIME_LEVEL_MASK
      if idx ≠ 0 then some (i, idx)
      else timer_shift_loop ct fuel (mask <<< TIME_LEVEL_SHIFT) (time >>> TIME_LEVEL_SHIFT) (i + 1)
    else none

/-- The function `timer_shift`. -/
def timer_shift (T : timer) : timer :=
  let mask := TIME_NEAR
  let ct := (T.time + 1) % UINT32_SIZE
  let T1 := { T with time := ct }
  if ct = 0 then
    move_list T1 3 0
  else
    match timer_shift_loop ct 4 mask (ct >>> TIME_NEAR_SHIFT) 0 with
    | some (i, idx) => move_list T1 i idx
    | none => T1

/-! ## Dispatch -/

/-- The function `dispatch_list`: one push and one free per node, front to back.
(The C loop is a `do … while`; it is only ever called on a non-empty chain.) -/
def dispatch_list : List timer_node → List dispatch
  | [] => []
  | current :: rest =>
    ⟨current.event.handle, ⟨0, current.event.session⟩, current⟩ :: dispatch_list rest

/-- The `while (T->near[idx].head.next)` loop of `timer_execute`. -/
def timer_execute_loop (idx : Nat) : Nat → timer → List dispatch → timer × List dispatch
  | 0, T, out => (T, out)
  | fuel + 1, T, out =>
    if T.near idx ≠ [] then
      let r := link_clear (T.near idx)
      timer_execute_loop idx fuel { T with near := Function.update T.near idx r.2 }
        (out ++ dispatch_list r.1)
    else (T, out)

/-- The function `timer_execute`.  Without concurrent producers the slot is empty when it is
checked for the second time, so two iterations are enough (`timer_execute_loop_fuel`). -/
def timer_execute (T : timer) : timer × List dispatch :=
  timer_execute_loop (T.time &&& TIME_NEAR_MASK) 2 T []

/-- The function `timer_update`: the new wheel and the dispatches of this cycle. -/
def timer_update (T : timer) : timer × List dispatch :=
  let r1 := timer_execute T
  let T2 := timer_shift r1.1
  let r3 := timer_execute T2
  (r3.1, r1.2 ++ r3.2)

/-! ## Creation -/

/-- The function `timer_create_timer`: zeroed memory, every bucket cleared. -/
def timer_create_timer : timer :=
  { near := fun _ => [], t := fun _ _ => [], time := 0, current := 0, starttime := 0,
    current_point := 0, origin_point := 0 }

/-- The function `skynet_timer_init`; `sec`, `cs` are the results of `systime` and `point` the
result of `gettime`. -/
def skynet_timer_init (sec cs point : Nat) : timer :=
  { timer_create_timer with
    starttime := sec, current := cs, current_point := point, origin_point := point }

/-! ## Public submission -/

/-- The function `skynet_timeout`.  `push` is the answer of `skynet_context_push`; the result is
the returned `int`, the new wheel and the pushes made by the call itself. -/
def skynet_timeout (push : Nat → skynet_message → Int) (TI : timer)
    (handle : Nat) (time : Int) (session : Int) : Int × timer × List (Nat × skynet_message) :=
  if time = 0 then
    let message : skynet_message := ⟨0, session⟩
    if push handle message ≠ 0 then (-1, TI, [(handle, message)])
    else (session, TI, [(handle, message)])
  else
    (session, timer_add TI ⟨handle, session⟩ time, [])

/-! ## Clock reconciliation -/

/-- The loop `for (i=0;i<diff;i++) timer_update(TI);` of `skynet_updatetime`; the first
argument counts the iterations that remain (`diff - i`).  The C counter `i` is an `int` that is
compared with the `uint32_t` `diff` as an unsigned value; here it is a natural number. -/
def skynet_updatetime_loop (diff : Nat) : Nat → Nat → timer → List dispatch → timer × List dispatch
  | 0, _, T, out => (T, out)
  | fuel + 1, i, T, out =>
    if i < diff then
      let r := timer_update T
      skynet_updatetime_loop diff fuel (i + 1) r.1 (out ++ r.2)
    else (T, out)

/-- The function `skynet_updatetime`; `cp` is the result of `gettime`. -/
def skynet_updatetime (TI : timer) (cp : Nat) : timer × List dispatch :=
  if cp < TI.current_point then
    ({ TI with current_point := cp }, [])
  else if cp ≠ TI.current_point then
    let diff := (cp - TI.current_point) % UINT32_SIZE
    let TI1 := { TI with current_point := cp }
    let oc := TI1.current
    let TI2 := { TI1 with current := (TI1.current + diff) % UINT32_SIZE }
    let TI3 := if TI2.current < oc then
        { TI2 with starttime := (TI2.starttime + 4294967295 / 100) % UINT32_SIZE }
      else TI2
    skynet_updatetime_loop diff diff 0 TI3 []
  else (TI, [])

/-! ## Placement rule and cascade rule in arithmetic form -/

/-- A bucket of the wheel: a slot of the near ring or a slot of a cascade level. -/
inductive slot
  | near (i : Nat)
  | level (i idx : Nat)
deriving DecidableEq, Repr

/-- The list stored in a bucket. -/
def bucket (T : timer) : slot → link_list
  | .near i => T.near i
  | .level i idx => T.t i idx

/-- Placement rule, level part: the first of the levels 0, 1, 2 above whose range the
expiry and the counter coincide, else 3 (arithmetic form). -/
def place_level (E T : Nat) : Nat :=
  if E / 16384 = T / 16384 then 0
  else if E / 1048576 = T / 1048576 then 1
  else if E / 67108864 = T / 67108864 then 2
  else 3

/-- Placement rule (arithmetic form): the bucket for expiry `E` when the counter is `T`. -/
def place (E T : Nat) : slot :=
  if E / 256 = T / 256 then .near (E % 256)
  else .level (place_level E T) (E / 2 ^ (8 + 6 * place_level E T) % 64)

/-- Spec wording: `E` and `T` agree on all bits from bit `b` upward. -/
def agree_from (b E T : Nat) : Prop := E >>> b = T >>> b

instance (b E T : Nat) : Decidable (agree_from b E T) := by
  unfold agree_from; infer_instance

/-- Spec wording: the smallest level `i` in {0,1,2} such that `E` and `T` agree on all bits
from bit `8 + 6*(i+1)` upward, and 3 when there is none. -/
def spec_level (E T : Nat) : Nat :=
  ((List.range 3).find? (fun i => decide (agree_from (8 + 6 * (i + 1)) E T))).getD 3

/-- The bucket cascaded when the counter becomes `ct` (arithmetic form). -/
def cascade_slot (ct : Nat) : Option (Nat × Nat) :=
  if ct = 0 then some (3, 0)
  else if ct % 256 ≠ 0 then none
  else if ct / 256 % 64 ≠ 0 then some (0, ct / 256 % 64)
  else if ct / 16384 % 64 ≠ 0 then some (1, ct / 16384 % 64)
  else if ct / 1048576 % 64 ≠ 0 then some (2, ct / 1048576 % 64)
  else if ct / 67108864 % 64 ≠ 0 then some (3, ct / 67108864 % 64)
  else none

/-! ## Invariant and reachable wheels -/

/-- Distance from the counter `T` to the expiry `E`, in ticks, modulo `2^32`. -/
def remaining (E T : Nat) : Nat := (E + UINT32_SIZE - T) % UINT32_SIZE

/-- Every entry of every bucket has a 32-bit expiry that lies between `lo` and `2^31 - 1`
ticks ahead of the counter, and sits in the bucket that the placement rule assigns to its
expiry at the current counter. -/
def placed_from (lo : Nat) (T : timer) : Prop :=
  T.time < UINT32_SIZE ∧
  ∀ s n, n ∈ bucket T s →
    n.expire < UINT32_SIZE ∧ lo ≤ remaining n.expire T.time ∧
    remaining n.expire T.time < 2147483648 ∧ s = place n.expire T.time

/-- The invariant of the wheel between two operations. -/
def wheel_inv (T : timer) : Prop := placed_from 1 T

/-- The entry is stored in some bucket of the wheel. -/
def pending (T : timer) (n : timer_node) : Prop := ∃ s, n ∈ bucket T s

/-- The wheels that the public entry points produce: `skynet_timer_init`, then any sequence of
`skynet_timeout` calls with a delay in `0 .. 2^31 - 1`, update cycles and `skynet_updatetime`
calls. -/
inductive Reachable : timer → Prop
  | init (sec cs point : Nat) : Reachable (skynet_timer_init sec cs point)
  | timeout (push : Nat → skynet_message → Int) (T : timer) (handle : Nat) (time session : Int) :
      Reachable T → 0 ≤ time → time < 2147483648 →
      Reachable (skynet_timeout push T handle time session).2.1
  | update (T : timer) : Reachable T → Reachable (timer_update T).1
  | updatetime (T : timer) (cp : Nat) : Reachable T → Reachable (skynet_updatetime T cp).1

/-- `n` update cycles in a row, with all their dispatches. -/
def update_cycles : Nat → timer → timer × List dispatch
  | 0, T => (T, [])
  | n + 1, T =>
    let r := timer_update T
    let q := update_cycles n r.1
    (q.1, r.2 ++ q.2)

/-- An operation on the wheel: a call of `skynet_timeout` or one update cycle. -/
inductive op
  | timeout (push : Nat → skynet_message → Int) (handle : Nat) (time session : Int)
  | update

/-- The delay of a submission is a non-negative C `int`. -/
def op.valid : op → Prop
  | .timeout _ _ time _ => 0 ≤ time ∧ time < 2147483648
  | .update => True

/-- The wheel after a sequence of operations. -/
def run_ops : List op → timer → timer
  | [], T => T
  | .timeout push handle time session :: rest, T =>
    run_ops rest (skynet_timeout push T handle time session).2.1
  | .update :: rest, T => run_ops rest (timer_update T).1

/-- Number of update cycles in a sequence of operations. -/
def count_updates : List op → Nat
  | [] => 0
  | .timeout _ _ _ _ :: rest => count_updates rest
  | .update :: rest => count_updates rest + 1

/-- All entries stored in the 256 near buckets and the 4 × 64 cascade buckets, as a multiset. -/
def all_entries (T : timer) : Multiset timer_node :=
  (∑ i in Finset.range 256, (T.near i : Multiset timer_node)) +
    ∑ i in Finset.range 4, ∑ j in Finset.range 64, (T.t i j : Multiset timer_node)

/-- A bucket index that exists in `struct timer`. -/
def slot.valid : slot → Prop
  | .near i => i < 256
  | .level i idx => i < 4 ∧ idx < 64

/-- Sum of a family of multisets over the buckets of the wheel. -/
def sum_slots (f : slot → Multiset timer_node) : Multiset timer_node :=
  (∑ i in Finset.range 256, f (.near i)) +
    ∑ i in Finset.range 4, ∑ j in Finset.range 64, f (.level i j)

/-- The fields of the wheel that only `skynet_updatetime` and `skynet_timer_init` write. -/
def clock_fields (T : timer) : Nat × Nat × Nat × Nat :=
  (T.current, T.starttime, T.current_point, T.origin_point)

/-- The wheel after `skynet_timer_init` (all clocks at 0) and one submission for handle 7,
session 9 with delay 1. -/
def sample_wheel : timer :=
  (skynet_timeout (fun _ _ => 0) (skynet_timer_init 0 0 0) 7 1 9).2.1

/-! ## Cascade target, cascade walk and entries of one expiry -/

/-- The bucket that `timer_shift` hands to `move_list` when called on `T`, if any: `(3, 0)` when
the counter wraps to 0, else the result of the `while` loop. -/
def timer_shift_target (T : timer) : Option (Nat × Nat) :=
  let ct := (T.time + 1) % UINT32_SIZE
  if ct = 0 then some (3, 0)
  else timer_shift_loop ct 4 TIME_NEAR (ct >>> TIME_NEAR_SHIFT) 0

/-- The values `(mask, time, i)` with which the condition of the `while` loop of `timer_shift`
is evaluated, in order; the first argument bounds the number of evaluations. -/
def timer_shift_walk (ct : Nat) : Nat → Nat → Nat → Nat → List (Nat × Nat × Nat)
  | 0, _, _, _ => []
  | fuel + 1, mask, time, i =>
    (mask, time, i) ::
      (if ct &&& (mask - 1) = 0 then
        if time &&& TIME_LEVEL_MASK ≠ 0 then []
        else timer_shift_walk ct fuel (mask <<< TIME_LEVEL_SHIFT) (time >>> TIME_LEVEL_SHIFT) (i + 1)
      else [])

/-- The entries with expiry `E`, in the order in which they are stored in the bucket of the
placement rule for `E`. -/
def same_expiry (T : timer) (E : Nat) : List timer_node :=
  (bucket T (place E T.time)).filter (fun n => decide (n.expire = E))

/-! ## The bucket list with its links -/

namespace Ptr

/-- What a `struct timer_node *` inside a list can refer to: the sentinel `list->head`, or an
allocated node, named by its address. -/
inductive ref
  | head
  | node (a : Nat)
deriving DecidableEq, Repr

/-- A `struct link_list` with its links: `head_next` is `list->head.next` (`none` is the null
pointer) and `tail` is `list->tail`. -/
structure link_list where
  head_next : Option Nat
  tail : ref
deriving DecidableEq, Repr

/-- The `next` field of every allocated node, by address. -/
abbrev memory := Nat → Option Nat

/-- The function `link_clear`: the returned pointer and the list after the call. -/
def link_clear (list : link_list) : Option Nat × link_list :=
  let ret := list.head_next
  (ret, { head_next := none, tail := .head })

/-- The function `link`: `list->tail->next = node; list->tail = node; node->next = 0;`. -/
def link (next : memory) (list : link_list) (node : Nat) : memory × link_list :=
  match list.tail with
  | .head =>
    (Function.update next node none, { head_next := some node, tail := .node node })
  | .node a =>
    (Function.update (Function.update next a (some node)) node none,
      { head_next := list.head_next, tail := .node node })

/-- The nodes met when following `next` from the pointer `p` are exactly `xs`, in this order,
and the last one has a null `next`. -/
def chain (next : memory) : Option Nat → List Nat → Prop
  | p, [] => p = none
  | p, a :: xs => p = some a ∧ chain next (next a) xs

instance (next : memory) (p : Option Nat) (xs : List Nat) : Decidable (chain next p xs) := by
  induction xs generalizing p with
  | nil => unfold chain; infer_instance
  | cons a xs ih => unfold chain; infer_instance

/-- The list holds the distinct nodes `xs` in this order: they are chained from `head.next`,
and `tail` refers to the last of them, or to the sentinel when there is none. -/
def holds (next : memory) (list : link_list) (xs : List Nat) : Prop :=
  chain next list.head_next xs ∧
    list.tail = (match xs.getLast? with
      | none => ref.head
      | some a => ref.node a) ∧
    xs.Nodup

instance (next : memory) (list : link_list) (xs : List Nat) : Decidable (holds next list xs) := by
  unfold holds; infer_instance

/-- The empty list, as `link_clear` leaves it. -/
def empty : link_list := { head_next := none, tail := .head }

/-- Appending the nodes `es` one after the other with `link`. -/
def link_all (next : memory) (list : link_list) : List Nat → memory × link_list
  | [] => (next, list)
  | e :: es => link_all (link next list e).1 (link next list e).2 es

end Ptr

/-! ## Bit masks as division and remainder -/

theorem lor_mask_eq_iff (a b k : Nat) :
    (a ||| (2 ^ k - 1)) = (b ||| (2 ^ k - 1)) ↔ a / 2 ^ k = b / 2 ^ k := by
  constructor
  · intro h
    apply Nat.eq_of_testBit_eq
    intro j
    have h1 := congrArg (fun x => Nat.testBit x (k + j)) h
    simp only [Nat.testBit_or, Nat.testBit_two_pow_sub_one] at h1
    rw [← Nat.shiftRight_eq_div_pow, ← Nat.shiftRight_eq_div_pow, Nat.testBit_shiftRight,
      Nat.testBit_shiftRight]
    simpa using h1
  · intro h
    apply Nat.eq_of_testBit_eq
    intro i
    simp only [Nat.testBit_or, Nat.testBit_two_pow_sub_one]
    by_cases hi : i < k
    · simp [hi]
    · have h1 := congrArg (fun x => Nat.testBit x (i - k)) h
      simp only [← Nat.shiftRight_eq_div_pow, Nat.testBit_shiftRight] at h1
      have : k + (i - k) = i := by omega
      rw [this] at h1
      simp [hi, h1]

theorem lor_255 (a b : Nat) : (a ||| 255) = (b ||| 255) ↔ a / 256 = b / 256 :=
  lor_mask_eq_iff a b 8

theorem lor_16383 (a b : Nat) : (a ||| 16383) = (b ||| 16383) ↔ a / 16384 = b / 16384 :=
  lor_mask_eq_iff a b 14

theorem lor_1048575 (a b : Nat) :
    (a ||| 1048575) = (b ||| 1048575) ↔ a / 1048576 = b / 1048576 :=
  lor_mask_eq_iff a b 20

theorem lor_67108863 (a b : Nat) :
    (a ||| 67108863) = (b ||| 67108863) ↔ a / 67108864 = b / 67108864 :=
  lor_mask_eq_iff a b 26

theorem land_255 (a : Nat) : a &&& 255 = a % 256 := Nat.and_pow_two_sub_one_eq_mod a 8

theorem land_63 (a : Nat) : a &&& 63 = a % 64 := Nat.and_pow_two_sub_one_eq_mod a 6

theorem add_node_loop_eq (E T : Nat) :
    add_node_loop E T 3 0 (TIME_NEAR <<< TIME_LEVEL_SHIFT) = place_level E T := by
  have e1 : TIME_NEAR <<< TIME_LEVEL_SHIFT = 16384 := by decide
  have e2 : (16384 <<< TIME_LEVEL_SHIFT) % UINT32_SIZE = 1048576 := by decide
  have e3 : (1048576 <<< TIME_LEVEL_SHIFT) % UINT32_SIZE = 67108864 := by decide
  simp only [add_node_loop, e1, e2, e3, place_level, Nat.add_one_sub_one, Nat.reduceSub,
    lor_16383, lor_1048575, lor_67108863]

theorem spec_level_eq (E T : Nat) : spec_level E T = place_level E T := by
  have r : List.range 3 = [0, 1, 2] := by decide
  simp only [spec_level, r, List.find?, agree_from, Nat.shiftRight_eq_div_pow, place_level]
  norm_num
  split_ifs <;> simp_all

theorem place_cases (E T : Nat) :
    place E T =
      if E / 256 = T / 256 then .near (E % 256)
      else if E / 16384 = T / 16384 then .level 0 (E / 256 % 64)
      else if E / 1048576 = T / 1048576 then .level 1 (E / 16384 % 64)
      else if E / 67108864 = T / 67108864 then .level 2 (E / 1048576 % 64)
      else .level 3 (E / 67108864 % 64) := by
  unfold place place_level
  split_ifs <;> rfl

theorem land_mask (a k : Nat) : a &&& (2 ^ k - 1) = a % 2 ^ k :=
  Nat.and_pow_two_sub_one_eq_mod a k

theorem timer_shift_loop_eq (ct : Nat) (h : ct ≠ 0) :
    timer_shift_loop ct 4 TIME_NEAR (ct >>> TIME_NEAR_SHIFT) 0 = cascade_slot ct := by
  have m0 : TIME_NEAR = 256 := by decide
  have m3 : TIME_NEAR_SHIFT = 8 := rfl
  have m4 : TIME_LEVEL_SHIFT = 6 := rfl
  have m2 : TIME_LEVEL_MASK = 63 := by decide
  have a1 : ct &&& (256 - 1) = ct % 256 := land_mask ct 8
  have a2 : ct &&& (256 <<< 6 - 1) = ct % 16384 := land_mask ct 14
  have a3 : ct &&& (256 <<< 6 <<< 6 - 1) = ct % 1048576 := land_mask ct 20
  have a4 : ct &&& (256 <<< 6 <<< 6 <<< 6 - 1) = ct % 67108864 := land_mask ct 26
  simp only [timer_shift_loop, m0, m3, m4, m2, a1, a2, a3, a4, land_63,
    Nat.shiftRight_eq_div_pow, cascade_slot, if_neg h]
  norm_num [Nat.div_div_eq_div_mul]
  split_ifs <;> first | rfl | omega

/-! ## Insertion -/

theorem add_node_eq (T : timer) (node : timer_node) :
    add_node T node =
      if node.expire / 256 = T.time / 256 then
        { T with near := Function.update T.near (node.expire % 256)
                          (T.near (node.expire % 256) ++ [node]) }
      else
        { T with t := Function.update T.t (place_level node.expire T.time)
                    (Function.update (T.t (place_level node.expire T.time))
                      (node.expire / 2 ^ (8 + 6 * place_level node.expire T.time) % 64)
                      (T.t (place_level node.expire T.time)
                        (node.expire / 2 ^ (8 + 6 * place_level node.expire T.time) % 64)
                        ++ [node])) } := by
  have m1 : TIME_NEAR_MASK = 255 := by decide
  have m2 : TIME_LEVEL_MASK = 63 := by decide
  have m3 : TIME_NEAR_SHIFT = 8 := rfl
  have m4 : TIME_LEVEL_SHIFT = 6 := rfl
  simp only [add_node, add_node_loop_eq, m1, m2, lor_255, land_255, land_63, link,
    Nat.shiftRight_eq_div_pow]
  simp only [m3, m4, Nat.mul_comm]

/-- Claim C2: `add_node` appends the node to `near[E mod 256]` when
`(E | 0xFF) = (T.time | 0xFF)`, and otherwise to `t[i][(E >> (8 + 6*i)) mod 64]` where `i` is the
smallest level in {0,1,2} such that `E` and `T.time` agree on all bits from bit `8 + 6*(i+1)`
upward, and 3 when there is none; every other bucket and every other field is unchanged. -/
theorem add_node_placement (T : timer) (node : timer_node) :
    add_node T node =
      if (node.expire ||| 255) = (T.time ||| 255) then
        { T with near := Function.update T.near (node.expire % 256)
                          (T.near (node.expire % 256) ++ [node]) }
      else
        { T with t := Function.update T.t (spec_level node.expire T.time)
                    (Function.update (T.t (spec_level node.expire T.time))
                      ((node.expire >>> (8 + 6 * spec_level node.expire T.time)) % 64)
                      (T.t (spec_level node.expire T.time)
                        ((node.expire >>> (8 + 6 * spec_level node.expire T.time)) % 64)
                        ++ [node])) } := by
  rw [add_node_eq]
  simp only [lor_255, spec_level_eq, Nat.shiftRight_eq_div_pow]

theorem add_node_time (T : timer) (node : timer_node) : (add_node T node).time = T.time := by
  rw [add_node_eq]; split_ifs <;> rfl

theorem bucket_add_node (T : timer) (node : timer_node) (s : slot) :
    bucket (add_node T node) s =
      if s = place node.expire T.time then bucket T s ++ [node] else bucket T s := by
  rw [add_node_eq]
  unfold place
  by_cases h : node.expire / 256 = T.time / 256
  · simp only [h, if_true]
    cases s with
    | near i =>
      by_cases hi : i = node.expire % 256
      · subst hi; simp [bucket]
      · simp [bucket, Function.update, hi]
    | level i idx => simp [bucket]
  · simp only [h, if_false]
    cases s with
    | near i => simp [bucket]
    | level i idx =>
      by_cases hi : i = place_level node.expire T.time
      · subst hi
        by_cases hj : idx = node.expire / 2 ^ (8 + 6 * place_level node.expire T.time) % 64
        · subst hj; simp [bucket]
        · simp [bucket, Function.update, hj]
      · simp [bucket, Function.update, hi]

/-! ## Dispatch, cascade and shift in closed form -/

theorem timer_execute_eq (T : timer) :
    timer_execute T =
      ({ T with near := Function.update T.near (T.time % 256) [] },
        dispatch_list (T.near (T.time % 256))) := by
  have m1 : TIME_NEAR_MASK = 255 := by decide
  simp only [timer_execute, timer_execute_loop, m1, land_255, link_clear]
  by_cases h : T.near (T.time % 256) = []
  · simp [h, dispatch_list]
    have : Function.update T.near (T.time % 256) [] = T.near := by
      rw [← h]; exact Function.update_eq_self _ _
    rw [this]
  · simp [h]

/-- The loop of `timer_execute` leaves through its condition: more iterations change nothing. -/
theorem timer_execute_loop_fuel (T : timer) (k : Nat) :
    timer_execute_loop (T.time &&& TIME_NEAR_MASK) (k + 2) T [] = timer_execute T := by
  simp only [timer_execute, timer_execute_loop, link_clear]
  by_cases h : T.near (T.time &&& TIME_NEAR_MASK) = []
  · simp [h]
  · simp [h]

/-- The loop of `timer_shift` leaves through `break` or its condition within 4 iterations. -/
theorem timer_shift_loop_fuel (ct : Nat) (h : ct ≠ 0) (h32 : ct < UINT32_SIZE) (k : Nat) :
    timer_shift_loop ct (k + 4) TIME_NEAR (ct >>> TIME_NEAR_SHIFT) 0 =
      timer_shift_loop ct 4 TIME_NEAR (ct >>> TIME_NEAR_SHIFT) 0 := by
  have m0 : TIME_NEAR = 256 := by decide
  have m3 : TIME_NEAR_SHIFT = 8 := rfl
  have m4 : TIME_LEVEL_SHIFT = 6 := rfl
  have m2 : TIME_LEVEL_MASK = 63 := by decide
  have a1 : ct &&& (256 - 1) = ct % 256 := land_mask ct 8
  have a2 : ct &&& (256 <<< 6 - 1) = ct % 16384 := land_mask ct 14
  have a3 : ct &&& (256 <<< 6 <<< 6 - 1) = ct % 1048576 := land_mask ct 20
  have a4 : ct &&& (256 <<< 6 <<< 6 <<< 6 - 1) = ct % 67108864 := land_mask ct 26
  simp only [timer_shift_loop, m0, m3, m4, m2, a1, a2, a3, a4, land_63,
    Nat.shiftRight_eq_div_pow]
  unfold UINT32_SIZE at h32
  norm_num
  split_ifs <;> first | rfl | (exfalso; omega)

theorem bucket_timer_execute (T : timer) (s : slot) :
    bucket (timer_execute T).1 s = if s = .near (T.time % 256) then [] else bucket T s := by
  rw [timer_execute_eq]
  cases s with
  | near i =>
    by_cases hi : i = T.time % 256
    · subst hi; simp [bucket]
    · simp [bucket, Function.update, hi]
  | level i idx => simp [bucket]

theorem timer_execute_time (T : timer) : (timer_execute T).1.time = T.time := by
  rw [timer_execute_eq]

theorem foldl_add_node_time (xs : List timer_node) (T : timer) :
    (xs.foldl add_node T).time = T.time := by
  induction xs generalizing T with
  | nil => rfl
  | cons x xs ih => simp [List.foldl, ih, add_node_time]

theorem bucket_foldl_add_node (xs : List timer_node) (T : timer) (s : slot) :
    bucket (xs.foldl add_node T) s =
      bucket T s ++ xs.filter (fun n => decide (s = place n.expire T.time)) := by
  induction xs generalizing T with
  | nil => simp
  | cons x xs ih =>
    simp only [List.foldl, ih, add_node_time, bucket_add_node, List.filter_cons]
    by_cases h : s = place x.expire T.time <;> simp [h]

theorem move_list_time (T : timer) (level idx : Nat) : (move_list T level idx).time = T.time := by
  simp [move_list, foldl_add_node_time]

theorem bucket_move_list (T : timer) (level idx : Nat) (s : slot) :
    bucket (move_list T level idx) s =
      (if s = .level level idx then [] else bucket T s) ++
        (T.t level idx).filter (fun n => decide (s = place n.expire T.time)) := by
  simp only [move_list, link_clear, bucket_foldl_add_node]
  congr 1
  cases s with
  | near i => simp [bucket]
  | level i j =>
    by_cases hi : i = level
    · subst hi
      by_cases hj : j = idx
      · subst hj; simp [bucket]
      · simp [bucket, Function.update, hj]
    · simp [bucket, Function.update, hi]

theorem timer_shift_eq (T : timer) :
    timer_shift T =
      match cascade_slot ((T.time + 1) % UINT32_SIZE) with
      | some (i, idx) => move_list { T with time := (T.time + 1) % UINT32_SIZE } i idx
      | none => { T with time := (T.time + 1) % UINT32_SIZE } := by
  unfold timer_shift
  by_cases h : (T.time + 1) % UINT32_SIZE = 0
  · simp [h, cascade_slot]
  · simp only [h, if_false, timer_shift_loop_eq _ h]

theorem timer_shift_time (T : timer) : (timer_shift T).time = (T.time + 1) % UINT32_SIZE := by
  rw [timer_shift_eq]
  cases cascade_slot ((T.time + 1) % UINT32_SIZE) with
  | none => rfl
  | some p => simp [move_list_time]

/-! ## Entries that a tick does not cascade keep their bucket -/

theorem cascade_slot_cases (ct : Nat) (h : ct ≠ 0) :
    (ct % 256 ≠ 0 ∧ cascade_slot ct = none) ∨
    (ct % 256 = 0 ∧ ct / 256 % 64 ≠ 0 ∧ cascade_slot ct = some (0, ct / 256 % 64)) ∨
    (ct % 16384 = 0 ∧ ct / 16384 % 64 ≠ 0 ∧ cascade_slot ct = some (1, ct / 16384 % 64)) ∨
    (ct % 1048576 = 0 ∧ ct / 1048576 % 64 ≠ 0 ∧
      cascade_slot ct = some (2, ct / 1048576 % 64)) ∨
    (ct % 67108864 = 0 ∧ ct / 67108864 % 64 ≠ 0 ∧
      cascade_slot ct = some (3, ct / 67108864 % 64)) ∨
    (ct % 4294967296 = 0 ∧ cascade_slot ct = none) := by
  unfold cascade_slot
  simp only [if_neg h]
  by_cases c0 : ct % 256 ≠ 0
  · left; exact ⟨c0, by simp [c0]⟩
  by_cases c1 : ct / 256 % 64 ≠ 0
  · right; left; exact ⟨by omega, c1, by simp [c0, c1]⟩
  by_cases c2 : ct / 16384 % 64 ≠ 0
  · right; right; left; exact ⟨by omega, c2, by simp [c0, c1, c2]⟩
  by_cases c3 : ct / 1048576 % 64 ≠ 0
  · right; right; right; left; exact ⟨by omega, c3, by simp [c0, c1, c2, c3]⟩
  by_cases c4 : ct / 67108864 % 64 ≠ 0
  · right; right; right; right; left; exact ⟨by omega, c4, by simp [c0, c1, c2, c3, c4]⟩
  · right; right; right; right; right; exact ⟨by omega, by simp [c0, c1, c2, c3, c4]⟩

/-- An entry ahead of the counter by less than `2^31` is not in the block of size `P` that the
counter is about to leave. -/
theorem not_same_block_of_last (P E T : Nat) (hP : 0 < P) (hP2 : P ≤ 2147483648)
    (h0 : 0 < (E + 4294967296 - T) % 4294967296)
    (h1 : (E + 4294967296 - T) % 4294967296 < 2147483648)
    (hl : (T + 1) % P = 0) : E / P ≠ T / P := by
  intro h
  have h2 : T + 1 = P * ((T + 1) / P) := by
    have := Nat.div_add_mod (T + 1) P
    omega
  have h3 : (T + 1) / P = T / P + 1 := by
    rw [Nat.succ_div, if_pos (Nat.dvd_of_mod_eq_zero hl)]
  have h4 : E < P * (E / P + 1) := Nat.lt_mul_div_succ E hP
  have h5 : P * (T / P) ≤ T := Nat.mul_div_le T P
  have h6 : P * (E / P) ≤ E := Nat.mul_div_le E P
  rw [h] at h4 h6
  rw [h3] at h2
  have h7 : P * (T / P + 1) = P * (T / P) + P := by ring
  have hle : E ≤ T := by omega
  have hd : T - E < P := by omega
  omega

theorem same_block_of_not_last (P T : Nat) (hl : (T + 1) % P ≠ 0) : (T + 1) / P = T / P := by
  rw [Nat.succ_div, if_neg (fun h => hl (Nat.mod_eq_zero_of_dvd h))]
  rfl


theorem place_of_blocks (E T T' : Nat) (h0 : E / 256 = T' / 256 ↔ E / 256 = T / 256)
    (h1 : E / 16384 = T' / 16384 ↔ E / 16384 = T / 16384)
    (h2 : E / 1048576 = T' / 1048576 ↔ E / 1048576 = T / 1048576)
    (h3 : E / 67108864 = T' / 67108864 ↔ E / 67108864 = T / 67108864) :
    place E T' = place E T := by
  rw [place_cases, place_cases]
  simp only [h0, h1, h2, h3]

theorem place_stay (E T : Nat) (hT : T < UINT32_SIZE)
    (h0 : 0 < remaining E T) (h1 : remaining E T < 2147483648)
    (hne : ∀ i idx, cascade_slot ((T + 1) % UINT32_SIZE) = some (i, idx) →
      place E T ≠ .level i idx) :
    place E ((T + 1) % UINT32_SIZE) = place E T := by
  unfold remaining at h0 h1
  unfold UINT32_SIZE at *
  have nb := fun P hP hP2 hl => not_same_block_of_last P E T hP hP2 h0 h1 hl
  by_cases hw : T + 1 = 4294967296
  · have hm : (T + 1) % 4294967296 = 0 := by omega
    rw [hm] at hne ⊢
    have n0 := nb 256 (by norm_num) (by norm_num) (by omega)
    have n1 := nb 16384 (by norm_num) (by norm_num) (by omega)
    have n2 := nb 1048576 (by norm_num) (by norm_num) (by omega)
    have n3 := nb 67108864 (by norm_num) (by norm_num) (by omega)
    have hc := hne 3 0 (by decide)
    rw [place_cases] at hc
    simp only [n0, n1, n2, n3, if_false, ne_eq, slot.level.injEq, true_and] at hc
    have m3 : ¬ E / 67108864 = 0 / 67108864 := by omega
    have m2 : ¬ E / 1048576 = 0 / 1048576 := by omega
    have m1 : ¬ E / 16384 = 0 / 16384 := by omega
    have m0 : ¬ E / 256 = 0 / 256 := by omega
    exact place_of_blocks E T 0 (by tauto) (by tauto) (by tauto) (by tauto)
  · have hm : (T + 1) % 4294967296 = T + 1 := by omega
    rw [hm] at hne ⊢
    rcases cascade_slot_cases (T + 1) (by omega) with ⟨c, _⟩ | ⟨c, c', e⟩ | ⟨c, c', e⟩ |
      ⟨c, c', e⟩ | ⟨c, c', e⟩ | ⟨c, _⟩
    · have s0 := same_block_of_not_last 256 T c
      have s1 := same_block_of_not_last 16384 T (by omega)
      have s2 := same_block_of_not_last 1048576 T (by omega)
      have s3 := same_block_of_not_last 67108864 T (by omega)
      exact place_of_blocks E T (T + 1) (by rw [s0]) (by rw [s1]) (by rw [s2]) (by rw [s3])
    · have hc := hne _ _ e
      have s1 := same_block_of_not_last 16384 T (by omega)
      have s2 := same_block_of_not_last 1048576 T (by omega)
      have s3 := same_block_of_not_last 67108864 T (by omega)
      have n0 := nb 256 (by norm_num) (by norm_num) c
      have m0 : ¬ E / 256 = (T + 1) / 256 := by
        intro a
        have a1 : E / 16384 = T / 16384 := by rw [← s1]; omega
        apply hc
        rw [place_cases, if_neg n0, if_pos a1, a]
      exact place_of_blocks E T (T + 1) (by tauto) (by rw [s1]) (by rw [s2]) (by rw [s3])
    · have hc := hne _ _ e
      have s2 := same_block_of_not_last 1048576 T (by omega)
      have s3 := same_block_of_not_last 67108864 T (by omega)
      have n0 := nb 256 (by norm_num) (by norm_num) (by omega)
      have n1 := nb 16384 (by norm_num) (by norm_num) c
      have m1 : ¬ E / 16384 = (T + 1) / 16384 := by
        intro a
        have a1 : E / 1048576 = T / 1048576 := by rw [← s2]; omega
        apply hc
        rw [place_cases, if_neg n0, if_neg n1, if_pos a1, a]
      have m0 : ¬ E / 256 = (T + 1) / 256 := by omega
      exact place_of_blocks E T (T + 1) (by tauto) (by tauto) (by rw [s2]) (by rw [s3])
    · have hc := hne _ _ e
      have s3 := same_block_of_not_last 67108864 T (by omega)
      have n0 := nb 256 (by norm_num) (by norm_num) (by omega)
      have n1 := nb 16384 (by norm_num) (by norm_num) (by omega)
      have n2 := nb 1048576 (by norm_num) (by norm_num) c
      have m2 : ¬ E / 1048576 = (T + 1) / 1048576 := by
        intro a
        have a1 : E / 67108864 = T / 67108864 := by rw [← s3]; omega
        apply hc
        rw [place_cases, if_neg n0, if_neg n1, if_neg n2, if_pos a1, a]
      have m1 : ¬ E / 16384 = (T + 1) / 16384 := by omega
      have m0 : ¬ E / 256 = (T + 1) / 256 := by omega
      exact place_of_blocks E T (T + 1) (by tauto) (by tauto) (by tauto) (by rw [s3])
    · have hc := hne _ _ e
      have n0 := nb 256 (by norm_num) (by norm_num) (by omega)
      have n1 := nb 16384 (by norm_num) (by norm_num) (by omega)
      have n2 := nb 1048576 (by norm_num) (by norm_num) (by omega)
      have n3 := nb 67108864 (by norm_num) (by norm_num) c
      have m3 : ¬ E / 67108864 = (T + 1) / 67108864 := by
        intro a
        apply hc
        rw [place_cases, if_neg n0, if_neg n1, if_neg n2, if_neg n3, a]
      have m2 : ¬ E / 1048576 = (T + 1) / 1048576 := by omega
      have m1 : ¬ E / 16384 = (T + 1) / 16384 := by omega
      have m0 : ¬ E / 256 = (T + 1) / 256 := by omega
      exact place_of_blocks E T (T + 1) (by tauto) (by tauto) (by tauto) (by tauto)
    · omega

/-! ## The invariant is kept by an update cycle -/

theorem place_eq_near_iff (E T i : Nat) :
    place E T = .near i ↔ E / 256 = T / 256 ∧ E % 256 = i := by
  rw [place_cases]
  split_ifs <;> simp [*]

theorem place_eq_near_self_iff (E T : Nat) (hE : E < UINT32_SIZE) (hT : T < UINT32_SIZE) :
    place E T = .near (T % 256) ↔ remaining E T = 0 := by
  rw [place_eq_near_iff]
  unfold remaining UINT32_SIZE at *
  omega

theorem remaining_succ (E T : Nat) (hE : E < UINT32_SIZE) (h : 1 ≤ remaining E T) :
    remaining E ((T + 1) % UINT32_SIZE) + 1 = remaining E T := by
  unfold remaining UINT32_SIZE at *
  omega

theorem inv_near_now_empty (T : timer) (h : wheel_inv T) : T.near (T.time % 256) = [] := by
  rw [List.eq_nil_iff_forall_not_mem]
  intro n hn
  obtain ⟨hE, h1, _, hp⟩ := h.2 (.near (T.time % 256)) n hn
  have := (place_eq_near_self_iff n.expire T.time hE h.1).1 hp.symm
  omega

theorem inv_timer_execute (T : timer) (h : wheel_inv T) : timer_execute T = (T, []) := by
  have m1 : TIME_NEAR_MASK = 255 := by decide
  simp only [timer_execute, timer_execute_loop, m1, land_255, inv_near_now_empty T h]
  simp

/-- After `timer_shift`, the entries of the wheel are the entries it held before, each in the
bucket of the placement rule at the new counter. -/
theorem mem_bucket_timer_shift (T : timer) (h : wheel_inv T) (s : slot) (n : timer_node) :
    n ∈ bucket (timer_shift T) s ↔
      pending T n ∧ s = place n.expire ((T.time + 1) % UINT32_SIZE) := by
  rw [timer_shift_eq]
  have stay : ∀ s0, n ∈ bucket T s0 →
      (∀ i idx, cascade_slot ((T.time + 1) % UINT32_SIZE) = some (i, idx) →
        s0 ≠ .level i idx) →
      place n.expire ((T.time + 1) % UINT32_SIZE) = s0 := by
    intro s0 hn hne
    obtain ⟨_, h1, h2, hp⟩ := h.2 s0 n hn
    rw [hp] at hne ⊢
    exact place_stay n.expire T.time h.1 h1 h2 hne
  cases hc : cascade_slot ((T.time + 1) % UINT32_SIZE) with
  | none =>
    simp only
    constructor
    · intro hn
      exact ⟨⟨s, hn⟩, (stay s hn (by simp [hc])).symm⟩
    · rintro ⟨⟨s0, hn⟩, hs⟩
      have := stay s0 hn (by simp [hc])
      rw [hs, this]; exact hn
  | some p =>
    obtain ⟨i, idx⟩ := p
    simp only [bucket_move_list, List.mem_append, List.mem_filter, decide_eq_true_eq]
    have hb : ∀ s0, bucket { T with time := (T.time + 1) % UINT32_SIZE } s0 = bucket T s0 := by
      intro s0; cases s0 <;> rfl
    have ht : ({ T with time := (T.time + 1) % UINT32_SIZE } : timer).t i idx =
        bucket T (.level i idx) := rfl
    rw [hb, ht]
    constructor
    · rintro (hn | ⟨hn, hs⟩)
      · by_cases hs : s = .level i idx
        · simp [hs] at hn
        · rw [if_neg hs] at hn
          refine ⟨⟨s, hn⟩, (stay s hn ?_).symm⟩
          intro i' idx' e
          rw [hc] at e
          injection e with e
          injection e with e1 e2
          subst e1 e2
          exact hs
      · exact ⟨⟨_, hn⟩, hs⟩
    · rintro ⟨⟨s0, hn⟩, hs⟩
      by_cases h0 : s0 = .level i idx
      · right; rw [← h0]; exact ⟨hn, hs⟩
      · left
        have := stay s0 hn (by
          intro i' idx' e
          rw [hc] at e
          injection e with e
          injection e with e1 e2
          subst e1 e2
          exact h0)
        rw [hs, this, if_neg h0]
        exact hn

theorem timer_update_eq (T : timer) (h : wheel_inv T) :
    timer_update T = timer_execute (timer_shift T) := by
  simp only [timer_update, inv_timer_execute T h, List.nil_append]

theorem timer_update_time (T : timer) :
    (timer_update T).1.time = (T.time + 1) % UINT32_SIZE := by
  simp only [timer_update, timer_execute_time, timer_shift_time]

/-- After an update cycle, the wheel holds the entries it held before except those that were
one tick ahead, each in the bucket of the placement rule at the new counter. -/
theorem mem_bucket_timer_update (T : timer) (h : wheel_inv T) (s : slot) (n : timer_node) :
    n ∈ bucket (timer_update T).1 s ↔
      pending T n ∧ remaining n.expire T.time ≠ 1 ∧
        s = place n.expire ((T.time + 1) % UINT32_SIZE) := by
  rw [timer_update_eq T h, bucket_timer_execute, timer_shift_time]
  have hlt : (T.time + 1) % UINT32_SIZE < UINT32_SIZE := Nat.mod_lt _ (by decide)
  have key : ∀ s0, n ∈ bucket T s0 →
      (place n.expire ((T.time + 1) % UINT32_SIZE) = .near ((T.time + 1) % UINT32_SIZE % 256) ↔
        remaining n.expire T.time = 1) := by
    intro s0 hn
    obtain ⟨hE, h1, _, _⟩ := h.2 s0 n hn
    rw [place_eq_near_self_iff _ _ hE hlt]
    have := remaining_succ n.expire T.time hE h1
    omega
  by_cases hs : s = .near ((T.time + 1) % UINT32_SIZE % 256)
  · rw [if_pos hs]
    simp only [List.not_mem_nil, false_iff, not_and]
    rintro ⟨s0, hn⟩ hr hp
    exact hr ((key s0 hn).1 (by rw [← hp, hs]))
  · rw [if_neg hs, mem_bucket_timer_shift T h]
    constructor
    · rintro ⟨⟨s0, hn⟩, hp⟩
      refine ⟨⟨s0, hn⟩, ?_, hp⟩
      intro hr
      exact hs (by rw [hp]; exact (key s0 hn).2 hr)
    · rintro ⟨hn, _, hp⟩
      exact ⟨hn, hp⟩

theorem mem_dispatch_list (d : dispatch) (l : List timer_node) :
    d ∈ dispatch_list l ↔
      ∃ n ∈ l, d = ⟨n.event.handle, ⟨0, n.event.session⟩, n⟩ := by
  induction l with
  | nil => simp [dispatch_list]
  | cons x xs ih =>
    simp only [dispatch_list, List.mem_cons, ih]
    constructor
    · rintro (rfl | ⟨n, hn, rfl⟩)
      · exact ⟨x, Or.inl rfl, rfl⟩
      · exact ⟨n, Or.inr hn, rfl⟩
    · rintro ⟨n, (rfl | hn), rfl⟩
      · exact Or.inl rfl
      · exact Or.inr ⟨n, hn, rfl⟩

/-- The dispatches of an update cycle are exactly the entries that were one tick ahead. -/
theorem mem_timer_update_out (T : timer) (h : wheel_inv T) (d : dispatch) :
    d ∈ (timer_update T).2 ↔
      ∃ n, pending T n ∧ remaining n.expire T.time = 1 ∧
        d = ⟨n.event.handle, ⟨0, n.event.session⟩, n⟩ := by
  rw [timer_update_eq T h, timer_execute_eq, timer_shift_time, mem_dispatch_list]
  have hlt : (T.time + 1) % UINT32_SIZE < UINT32_SIZE := Nat.mod_lt _ (by decide)
  have hb : (timer_shift T).near ((T.time + 1) % UINT32_SIZE % 256) =
      bucket (timer_shift T) (.near ((T.time + 1) % UINT32_SIZE % 256)) := rfl
  simp only [hb, mem_bucket_timer_shift T h]
  constructor
  · rintro ⟨n, ⟨⟨s0, hn⟩, hp⟩, rfl⟩
    refine ⟨n, ⟨s0, hn⟩, ?_, rfl⟩
    obtain ⟨hE, h1, _, _⟩ := h.2 s0 n hn
    have := (place_eq_near_self_iff _ _ hE hlt).1 hp.symm
    have := remaining_succ n.expire T.time hE h1
    omega
  · rintro ⟨n, ⟨s0, hn⟩, hr, rfl⟩
    refine ⟨n, ⟨⟨s0, hn⟩, ?_⟩, rfl⟩
    obtain ⟨hE, h1, _, _⟩ := h.2 s0 n hn
    have := remaining_succ n.expire T.time hE h1
    exact ((place_eq_near_self_iff _ _ hE hlt).2 (by omega)).symm

theorem wheel_inv_timer_update (T : timer) (h : wheel_inv T) : wheel_inv (timer_update T).1 := by
  refine ⟨by rw [timer_update_time]; exact Nat.mod_lt _ (by decide), ?_⟩
  intro s n hn
  rw [timer_update_time]
  rw [mem_bucket_timer_update T h] at hn
  obtain ⟨⟨s0, hn0⟩, hr, hp⟩ := hn
  obtain ⟨hE, h1, h2, _⟩ := h.2 s0 n hn0
  have := remaining_succ n.expire T.time hE h1
  exact ⟨hE, by omega, by omega, hp⟩

/-! ## Submissions and reachable wheels -/

theorem timer_add_expire (T : timer) (d : Nat) :
    (((d : Int) + (T.time : Int)) % (UINT32_SIZE : Int)).toNat = (T.time + d) % UINT32_SIZE := by
  unfold UINT32_SIZE
  omega

theorem timer_add_eq (T : timer) (arg : timer_event) (d : Nat) :
    timer_add T arg (d : Int) = add_node T ⟨(T.time + d) % UINT32_SIZE, arg⟩ := by
  unfold timer_add
  rw [timer_add_expire]

theorem wheel_inv_add_node (T : timer) (h : wheel_inv T) (n : timer_node)
    (hE : n.expire < UINT32_SIZE) (h1 : 1 ≤ remaining n.expire T.time)
    (h2 : remaining n.expire T.time < 2147483648) : wheel_inv (add_node T n) := by
  refine ⟨by rw [add_node_time]; exact h.1, ?_⟩
  intro s m hm
  rw [add_node_time]
  rw [bucket_add_node] at hm
  by_cases hs : s = place n.expire T.time
  · rw [if_pos hs, List.mem_append, List.mem_singleton] at hm
    rcases hm with hm | rfl
    · exact h.2 s m hm
    · exact ⟨hE, h1, h2, hs⟩
  · rw [if_neg hs] at hm
    exact h.2 s m hm

theorem pending_add_node (T : timer) (n m : timer_node) :
    pending (add_node T n) m ↔ pending T m ∨ m = n := by
  constructor
  · rintro ⟨s, hm⟩
    rw [bucket_add_node] at hm
    by_cases hs : s = place n.expire T.time
    · rw [if_pos hs, List.mem_append, List.mem_singleton] at hm
      rcases hm with hm | rfl
      · exact Or.inl ⟨s, hm⟩
      · exact Or.inr rfl
    · rw [if_neg hs] at hm
      exact Or.inl ⟨s, hm⟩
  · rintro (⟨s, hm⟩ | rfl)
    · refine ⟨s, ?_⟩
      rw [bucket_add_node]
      split_ifs
      · exact List.mem_append_left _ hm
      · exact hm
    · refine ⟨place m.expire T.time, ?_⟩
      rw [bucket_add_node, if_pos rfl]
      simp

theorem remaining_add (T d : Nat) (hT : T < UINT32_SIZE) (hd : d < UINT32_SIZE) :
    remaining ((T + d) % UINT32_SIZE) T = d := by
  unfold remaining UINT32_SIZE at *
  omega

theorem skynet_timeout_wheel (push : Nat → skynet_message → Int) (T : timer) (handle : Nat)
    (time session : Int) :
    (skynet_timeout push T handle time session).2.1 =
      if time = 0 then T else timer_add T ⟨handle, session⟩ time := by
  simp only [skynet_timeout]
  split_ifs <;> rfl

theorem wheel_inv_skynet_timeout (push : Nat → skynet_message → Int) (T : timer)
    (h : wheel_inv T) (handle : Nat) (time session : Int) (h0 : 0 ≤ time)
    (h1 : time < 2147483648) : wheel_inv (skynet_timeout push T handle time session).2.1 := by
  rw [skynet_timeout_wheel]
  split_ifs with hz
  · exact h
  · obtain ⟨d, rfl⟩ := Int.eq_ofNat_of_zero_le h0
    rw [timer_add_eq]
    have hd : d < 2147483648 := by omega
    have hd0 : 0 < d := by omega
    have hr := remaining_add T.time d h.1 (by unfold UINT32_SIZE; omega)
    apply wheel_inv_add_node T h
    · exact Nat.mod_lt _ (by decide)
    · show 1 ≤ remaining ((T.time + d) % UINT32_SIZE) T.time
      omega
    · show remaining ((T.time + d) % UINT32_SIZE) T.time < 2147483648
      omega

theorem skynet_timeout_time (push : Nat → skynet_message → Int) (T : timer) (handle : Nat)
    (time session : Int) : (skynet_timeout push T handle time session).2.1.time = T.time := by
  rw [skynet_timeout_wheel]
  split_ifs
  · rfl
  · exact add_node_time _ _

theorem pending_skynet_timeout (push : Nat → skynet_message → Int) (T : timer) (handle : Nat)
    (time session : Int) (n : timer_node) (hn : pending T n) :
    pending (skynet_timeout push T handle time session).2.1 n := by
  rw [skynet_timeout_wheel]
  split_ifs
  · exact hn
  · exact (pending_add_node _ _ _).2 (Or.inl hn)

theorem skynet_updatetime_loop_eq (diff : Nat) (fuel i : Nat) (T : timer) (out : List dispatch)
    (hf : i + fuel = diff) :
    skynet_updatetime_loop diff fuel i T out =
      ((update_cycles fuel T).1, out ++ (update_cycles fuel T).2) := by
  induction fuel generalizing i T out with
  | zero => simp [skynet_updatetime_loop, update_cycles]
  | succ k ih =>
    have hi : i < diff := by omega
    simp only [skynet_updatetime_loop, if_pos hi, update_cycles]
    rw [ih (i + 1) _ _ (by omega)]
    simp

theorem wheel_inv_update_cycles (n : Nat) (T : timer) (h : wheel_inv T) :
    wheel_inv (update_cycles n T).1 := by
  induction n generalizing T with
  | zero => exact h
  | succ k ih => exact ih _ (wheel_inv_timer_update T h)

theorem wheel_inv_congr (T T' : timer) (h : wheel_inv T) (h1 : T'.near = T.near)
    (h2 : T'.t = T.t) (h3 : T'.time = T.time) : wheel_inv T' := by
  have hb : ∀ s, bucket T' s = bucket T s := by
    intro s; cases s <;> simp [bucket, h1, h2]
  refine ⟨by rw [h3]; exact h.1, ?_⟩
  intro s n hn
  rw [hb] at hn
  rw [h3]
  exact h.2 s n hn

theorem wheel_inv_skynet_updatetime (T : timer) (h : wheel_inv T) (cp : Nat) :
    wheel_inv (skynet_updatetime T cp).1 := by
  simp only [skynet_updatetime]
  by_cases c1 : cp < T.current_point
  · rw [if_pos c1]
    exact wheel_inv_congr T _ h rfl rfl rfl
  · rw [if_neg c1]
    by_cases c2 : cp ≠ T.current_point
    · rw [if_pos c2, skynet_updatetime_loop_eq _ _ _ _ _ (by omega)]
      apply wheel_inv_update_cycles
      split_ifs <;> exact wheel_inv_congr T _ h rfl rfl rfl
    · rw [if_neg c2]
      exact h

theorem wheel_inv_init (sec cs point : Nat) : wheel_inv (skynet_timer_init sec cs point) := by
  refine ⟨by show 0 < UINT32_SIZE; decide, ?_⟩
  intro s n hn
  cases s <;> simp [bucket, skynet_timer_init, timer_create_timer] at hn

theorem Reachable.wheel_inv {T : timer} (h : Reachable T) : wheel_inv T := by
  induction h with
  | init sec cs point => exact wheel_inv_init sec cs point
  | timeout push T handle time session _ h0 h1 ih =>
    exact wheel_inv_skynet_timeout push T ih handle time session h0 h1
  | update T _ ih => exact wheel_inv_timer_update T ih
  | updatetime T cp _ ih => exact wheel_inv_skynet_updatetime T ih cp

/-! ## Firing -/

/-- A pending entry that is more than `count_updates ops` ticks ahead is still pending after
`ops`, the counter has advanced by the number of update cycles, and the invariant holds. -/
theorem pending_run_ops (ops : List op) (hv : ∀ o ∈ ops, o.valid) (T : timer)
    (h : wheel_inv T) (n : timer_node) (hn : pending T n)
    (hc : count_updates ops < remaining n.expire T.time) :
    wheel_inv (run_ops ops T) ∧ pending (run_ops ops T) n ∧
      remaining n.expire (run_ops ops T).time + count_updates ops = remaining n.expire T.time ∧
      (run_ops ops T).time = (T.time + count_updates ops) % UINT32_SIZE := by
  induction ops generalizing T with
  | nil =>
    refine ⟨h, hn, rfl, ?_⟩
    have := h.1
    simp only [run_ops, count_updates, Nat.add_zero]
    exact (Nat.mod_eq_of_lt this).symm
  | cons o rest ih =>
    have hv' : ∀ o ∈ rest, o.valid := fun o ho => hv o (List.mem_cons_of_mem _ ho)
    cases o with
    | timeout push handle time session =>
      have hval : 0 ≤ time ∧ time < 2147483648 := hv _ (List.mem_cons_self _ _)
      have h' := wheel_inv_skynet_timeout push T h handle time session hval.1 hval.2
      have hn' := pending_skynet_timeout push T handle time session n hn
      have ht := skynet_timeout_time push T handle time session
      have := ih hv' _ h' hn' (by rw [ht]; exact hc)
      simp only [run_ops, count_updates]
      rw [ht] at this
      exact this
    | update =>
      simp only [count_updates] at hc
      obtain ⟨s0, hn0⟩ := hn
      obtain ⟨hE, h1, _, _⟩ := h.2 s0 n hn0
      have h' := wheel_inv_timer_update T h
      have hn' : pending (timer_update T).1 n :=
        ⟨_, (mem_bucket_timer_update T h _ n).2 ⟨⟨s0, hn0⟩, by omega, rfl⟩⟩
      have ht := timer_update_time T
      have hr := remaining_succ n.expire T.time hE h1
      have := ih hv' _ h' hn' (by rw [ht]; omega)
      simp only [run_ops, count_updates]
      rw [ht] at this
      refine ⟨this.1, this.2.1, by omega, ?_⟩
      rw [this.2.2.2]
      unfold UINT32_SIZE
      omega

theorem pending_timer_add (T : timer) (arg : timer_event) (d : Nat) :
    pending (timer_add T arg (d : Int)) ⟨(T.time + d) % UINT32_SIZE, arg⟩ := by
  rw [timer_add_eq]
  exact (pending_add_node _ _ _).2 (Or.inr rfl)

/-- Setup shared by the firing theorems: after a submission with delay `d` and operations with
fewer than `d` update cycles, the entry is pending, `d - count_updates ops` ticks ahead. -/
theorem submitted_run_ops (T : timer) (h : wheel_inv T) (push : Nat → skynet_message → Int)
    (handle : Nat) (session : Int) (d : Nat) (hd0 : 0 < d) (hd : d < 2147483648)
    (ops : List op) (hv : ∀ o ∈ ops, o.valid) (hc : count_updates ops < d) :
    wheel_inv (run_ops ops (skynet_timeout push T handle d session).2.1) ∧
      pending (run_ops ops (skynet_timeout push T handle d session).2.1)
        ⟨(T.time + d) % UINT32_SIZE, ⟨handle, session⟩⟩ ∧
      remaining ((T.time + d) % UINT32_SIZE)
          (run_ops ops (skynet_timeout push T handle d session).2.1).time + count_updates ops
        = d ∧
      (run_ops ops (skynet_timeout push T handle d session).2.1).time =
        (T.time + count_updates ops) % UINT32_SIZE := by
  have h1 := wheel_inv_skynet_timeout push T h handle d session (by omega) (by omega)
  have ht := skynet_timeout_time push T handle d session
  have hp : pending (skynet_timeout push T handle d session).2.1
      ⟨(T.time + d) % UINT32_SIZE, ⟨handle, session⟩⟩ := by
    rw [skynet_timeout_wheel, if_neg (by omega)]
    exact pending_timer_add T _ d
  have hr := remaining_add T.time d h.1 (by unfold UINT32_SIZE; omega)
  have := pending_run_ops ops hv _ h1 _ hp (by rw [ht]; show count_updates ops < remaining ((T.time + d) % UINT32_SIZE) T.time; omega)
  rw [ht] at this
  refine ⟨this.1, this.2.1, ?_, this.2.2.2⟩
  have e := this.2.2.1
  simp only at e
  rw [hr] at e
  exact e

/-- Firing of a submitted entry, from the invariant: no entry with its expiry is dispatched in
the first `d - 1` cycles after the submission, and the entry is dispatched in cycle `d`. -/
theorem fires_after_delay (T : timer) (h : wheel_inv T)
    (push : Nat → skynet_message → Int) (handle : Nat) (session : Int) (d : Nat)
    (hd0 : 0 < d) (hd : d < 2147483648) (ops : List op) (hv : ∀ o ∈ ops, o.valid) :
    (count_updates ops + 1 < d →
      ∀ x ∈ (timer_update (run_ops ops (skynet_timeout push T handle d session).2.1)).2,
        x.freed.expire ≠ (T.time + d) % UINT32_SIZE) ∧
    (count_updates ops + 1 = d →
      (⟨handle, ⟨0, session⟩, ⟨(T.time + d) % UINT32_SIZE, ⟨handle, session⟩⟩⟩ : dispatch) ∈
          (timer_update (run_ops ops (skynet_timeout push T handle d session).2.1)).2 ∧
        (timer_update (run_ops ops (skynet_timeout push T handle d session).2.1)).1.time =
          (T.time + d) % UINT32_SIZE) := by
  refine ⟨?_, ?_⟩
  · intro hc x hx
    obtain ⟨hi, _, hr, _⟩ :=
      submitted_run_ops T h push handle session d hd0 hd ops hv (by omega)
    rw [mem_timer_update_out _ hi] at hx
    obtain ⟨n, _, hn1, rfl⟩ := hx
    intro e
    simp only at e
    rw [e] at hn1
    omega
  · intro hc
    obtain ⟨hi, hp, hr, ht⟩ :=
      submitted_run_ops T h push handle session d hd0 hd ops hv (by omega)
    have hr1 : remaining ((T.time + d) % UINT32_SIZE)
        (run_ops ops (skynet_timeout push T handle d session).2.1).time = 1 := by omega
    refine ⟨(mem_timer_update_out _ hi _).2 ⟨_, hp, hr1, rfl⟩, ?_⟩
    rw [timer_update_time, ht]
    unfold UINT32_SIZE
    omega

/-- Claim C1: in a reachable wheel with counter `T.time`, an entry submitted through
`skynet_timeout` for `handle` and `session` with delay `d < 2^31` is delivered by the call itself
when `d = 0` (one push, wheel unchanged); when `d > 0`, whatever valid submissions and update
cycles `ops` follow, no entry with its expiry is dispatched by an update cycle that comes earlier
than the `d`-th one after the submission, and the `d`-th update cycle dispatches it to `handle`
with `session` and leaves the counter at `(T.time + d) mod 2^32`. -/
theorem timeout_fires_after_delay (T : timer) (hT : Reachable T)
    (push : Nat → skynet_message → Int) (handle : Nat) (session : Int) (d : Nat)
    (hd : d < 2147483648) (ops : List op) (hv : ∀ o ∈ ops, o.valid) :
    (d = 0 → (skynet_timeout push T handle d session).2.2 = [(handle, ⟨0, session⟩)] ∧
      (skynet_timeout push T handle d session).2.1 = T) ∧
    (count_updates ops + 1 < d →
      ∀ x ∈ (timer_update (run_ops ops (skynet_timeout push T handle d session).2.1)).2,
        x.freed.expire ≠ (T.time + d) % UINT32_SIZE) ∧
    (count_updates ops + 1 = d →
      (⟨handle, ⟨0, session⟩, ⟨(T.time + d) % UINT32_SIZE, ⟨handle, session⟩⟩⟩ : dispatch) ∈
          (timer_update (run_ops ops (skynet_timeout push T handle d session).2.1)).2 ∧
        (timer_update (run_ops ops (skynet_timeout push T handle d session).2.1)).1.time =
          (T.time + d) % UINT32_SIZE) := by
  have h := hT.wheel_inv
  refine ⟨?_, ?_, ?_⟩
  · rintro rfl
    simp only [skynet_timeout, Nat.cast_zero, if_true]
    split_ifs <;> exact ⟨rfl, rfl⟩
  · intro hc
    exact (fires_after_delay T h push handle session d (by omega) hd ops hv).1 hc
  · intro hc
    exact (fires_after_delay T h push handle session d (by omega) hd ops hv).2 hc

/-! ## Placement invariant and cascade correctness -/

theorem place_spec_form (E T : Nat) :
    place E T =
      if E >>> 8 = T >>> 8 then slot.near (E % 256)
      else slot.level (spec_level E T) ((E >>> (8 + 6 * spec_level E T)) % 64) := by
  simp only [place, spec_level_eq, Nat.shiftRight_eq_div_pow]

theorem mem_near_of_inv (T : timer) (h : wheel_inv T) (n : timer_node) (hn : pending T n)
    (hb : T.time >>> 8 = n.expire >>> 8) :
    n ∈ T.near (n.expire % 256) ∧ (∀ i j, n ∉ T.t i j) := by
  simp only [Nat.shiftRight_eq_div_pow] at hb
  have hp : place n.expire T.time = .near (n.expire % 256) :=
    (place_eq_near_iff _ _ _).2 ⟨hb.symm, rfl⟩
  obtain ⟨s0, hn0⟩ := hn
  have e0 := (h.2 s0 n hn0).2.2.2
  rw [hp] at e0
  subst e0
  refine ⟨hn0, ?_⟩
  intro i j hij
  have e1 := (h.2 (.level i j) n hij).2.2.2
  rw [hp] at e1
  cases e1

/-- Claim C6: in a reachable wheel every stored entry is in the bucket of the placement rule
for its expiry `E` at the current counter: `near[E mod 256]` when `E` and the counter agree above
the low 8 bits, else level `i` and slot `(E >> (8 + 6*i)) mod 64` for the highest bit group in
which they differ; this is the bucket `add_node` would append it to.  Its expiry is between 1 and
`2^31 - 1` ticks ahead, and it is not behind the counter: a near slot is above the counter's low
8 bits, a slot of level 0, 1 or 2 is above the counter's index at that level, and a slot of
level 3 differs from the counter's index. -/
theorem placement_invariant (T : timer) (hT : Reachable T) (s : slot) (n : timer_node)
    (hn : n ∈ bucket T s) :
    s = (if n.expire >>> 8 = T.time >>> 8 then slot.near (n.expire % 256)
        else slot.level (spec_level n.expire T.time)
          ((n.expire >>> (8 + 6 * spec_level n.expire T.time)) % 64)) ∧
    bucket (add_node T n) s = bucket T s ++ [n] ∧
    0 < remaining n.expire T.time ∧ remaining n.expire T.time < 2147483648 ∧
    (∀ i, s = .near i → T.time % 256 < i) ∧
    (∀ i idx, s = .level i idx → i < 3 → (T.time >>> (8 + 6 * i)) % 64 < idx) ∧
    (∀ idx, s = .level 3 idx → (T.time >>> 26) % 64 ≠ idx) := by
  have h := hT.wheel_inv
  obtain ⟨hE, h1, h2, hp⟩ := h.2 s n hn
  have hlt := h.1
  refine ⟨by rw [← place_spec_form]; exact hp, ?_, h1, h2, ?_, ?_, ?_⟩
  · rw [bucket_add_node, if_pos hp]
  · intro i hi
    rw [hi] at hp
    have := (place_eq_near_iff _ _ _).1 hp.symm
    unfold remaining UINT32_SIZE at *
    omega
  · intro i idx hi hi3
    rw [hi, place_cases] at hp
    simp only [Nat.shiftRight_eq_div_pow]
    unfold remaining UINT32_SIZE at *
    split_ifs at hp <;> injection hp with e1 e2 <;> subst e1 <;> omega
  · intro idx hi
    rw [hi, place_cases] at hp
    simp only [Nat.shiftRight_eq_div_pow]
    unfold remaining UINT32_SIZE at *
    split_ifs at hp <;> injection hp with e1 e2 <;> omega


/-- Claim C3: an entry submitted in a reachable wheel with a delay `0 < d < 2^31` that does
not fall in the near range is placed in a cascade bucket; while fewer than `d` update cycles have
completed since (with any valid submissions in between), as soon as the counter agrees with the
expiry `E` on all bits above the low 8 the entry is in `near[E mod 256]` and in no cascade
bucket.  This is stated both between update cycles (counter `< E`) and right after the
`timer_shift` of the next cycle (counter `≤ E`, before that cycle dispatches). -/
theorem cascade_reaches_near (T : timer) (hT : Reachable T)
    (push : Nat → skynet_message → Int) (handle : Nat) (session : Int) (d : Nat)
    (hd0 : 0 < d) (hd : d < 2147483648) (ops : List op) (hv : ∀ o ∈ ops, o.valid)
    (hc : count_updates ops < d) :
    (((T.time + d) % UINT32_SIZE) >>> 8 ≠ T.time >>> 8 →
      ∃ i j, (⟨(T.time + d) % UINT32_SIZE, ⟨handle, session⟩⟩ : timer_node) ∈
        (skynet_timeout push T handle d session).2.1.t i j) ∧
    ((run_ops ops (skynet_timeout push T handle d session).2.1).time >>> 8 =
        ((T.time + d) % UINT32_SIZE) >>> 8 →
      (⟨(T.time + d) % UINT32_SIZE, ⟨handle, session⟩⟩ : timer_node) ∈
          (run_ops ops (skynet_timeout push T handle d session).2.1).near
            ((T.time + d) % UINT32_SIZE % 256) ∧
        (∀ i j, (⟨(T.time + d) % UINT32_SIZE, ⟨handle, session⟩⟩ : timer_node) ∉
          (run_ops ops (skynet_timeout push T handle d session).2.1).t i j) ∧
        (run_ops ops (skynet_timeout push T handle d session).2.1).time <
          (T.time + d) % UINT32_SIZE) ∧
    ((timer_shift (timer_execute
          (run_ops ops (skynet_timeout push T handle d session).2.1)).1).time >>> 8 =
        ((T.time + d) % UINT32_SIZE) >>> 8 →
      (⟨(T.time + d) % UINT32_SIZE, ⟨handle, session⟩⟩ : timer_node) ∈
          (timer_shift (timer_execute
            (run_ops ops (skynet_timeout push T handle d session).2.1)).1).near
            ((T.time + d) % UINT32_SIZE % 256) ∧
        (∀ i j, (⟨(T.time + d) % UINT32_SIZE, ⟨handle, session⟩⟩ : timer_node) ∉
          (timer_shift (timer_execute
            (run_ops ops (skynet_timeout push T handle d session).2.1)).1).t i j) ∧
        (timer_shift (timer_execute
            (run_ops ops (skynet_timeout push T handle d session).2.1)).1).time ≤
          (T.time + d) % UINT32_SIZE) := by
  have h := hT.wheel_inv
  obtain ⟨hi, hp, hr, ht⟩ := submitted_run_ops T h push handle session d hd0 hd ops hv hc
  have hE : (T.time + d) % UINT32_SIZE < UINT32_SIZE := Nat.mod_lt _ (by decide)
  refine ⟨?_, ?_, ?_⟩
  · intro hfar
    have hp1 : pending (skynet_timeout push T handle d session).2.1
        ⟨(T.time + d) % UINT32_SIZE, ⟨handle, session⟩⟩ := by
      rw [skynet_timeout_wheel, if_neg (by omega)]
      exact pending_timer_add T _ d
    have h1 := wheel_inv_skynet_timeout push T h handle d session (by omega) (by omega)
    obtain ⟨s0, hn0⟩ := hp1
    have e0 := (h1.2 s0 _ hn0).2.2.2
    rw [skynet_timeout_time, place_spec_form] at e0
    simp only [if_neg hfar] at e0
    subst e0
    exact ⟨_, _, hn0⟩
  · intro hb
    obtain ⟨m1, m2⟩ := mem_near_of_inv _ hi _ hp hb
    refine ⟨m1, m2, ?_⟩
    simp only [Nat.shiftRight_eq_div_pow] at hb
    have := hi.1
    unfold remaining UINT32_SIZE at *
    omega
  · rw [inv_timer_execute _ hi]
    dsimp only
    intro hb
    have hlt : (timer_shift (run_ops ops (skynet_timeout push T handle d session).2.1)).time
        < UINT32_SIZE := by rw [timer_shift_time]; exact Nat.mod_lt _ (by decide)
    simp only [Nat.shiftRight_eq_div_pow] at hb
    have hpl : place ((T.time + d) % UINT32_SIZE)
        (timer_shift (run_ops ops (skynet_timeout push T handle d session).2.1)).time =
        .near ((T.time + d) % UINT32_SIZE % 256) := (place_eq_near_iff _ _ _).2 ⟨hb.symm, rfl⟩
    rw [timer_shift_time] at hpl
    refine ⟨?_, ?_, ?_⟩
    · exact (mem_bucket_timer_shift _ hi (.near ((T.time + d) % UINT32_SIZE % 256)) _).2
        ⟨hp, hpl.symm⟩
    · intro i j hij
      have := ((mem_bucket_timer_shift _ hi (.level i j) _).1 hij).2
      rw [hpl] at this
      cases this
    · rw [timer_shift_time] at hb ⊢
      have := hi.1
      unfold remaining UINT32_SIZE at *
      omega

/-! ## Wraparound -/

/-- Claim C4: in a reachable wheel whose counter is `0xFFFFFFFF`, `timer_shift` sets the
counter to 0, clears `t[3][0]` and reinserts its entries with `add_node`; afterwards `t[3][0]` is
empty and each of these entries is in its near slot or in a bucket of level 0, 1 or 2.  An entry
submitted with delay `0 < d < 2^31` when `T.time + d ≥ 2^32` is dispatched by the `d`-th update
cycle after the submission, at counter `T.time + d - 2^32`, and no entry with that expiry is
dispatched by an earlier cycle. -/
theorem wraparound_cascade (T : timer) (hT : Reachable T) :
    (T.time = 4294967295 →
      timer_shift T =
        (T.t 3 0).foldl add_node
          { T with time := 0, t := Function.update T.t 3 (Function.update (T.t 3) 0 []) } ∧
      (timer_shift T).time = 0 ∧
      (timer_shift T).t 3 0 = [] ∧
      ∀ n ∈ T.t 3 0, n ∈ (timer_shift T).near (n.expire % 256) ∨
        ∃ i j, i < 3 ∧ n ∈ (timer_shift T).t i j) ∧
    (∀ (push : Nat → skynet_message → Int) (handle : Nat) (session : Int) (d : Nat)
      (ops : List op), 0 < d → d < 2147483648 → UINT32_SIZE ≤ T.time + d →
      (∀ o ∈ ops, o.valid) →
      (count_updates ops + 1 < d →
        ∀ x ∈ (timer_update (run_ops ops (skynet_timeout push T handle d session).2.1)).2,
          x.freed.expire ≠ T.time + d - UINT32_SIZE) ∧
      (count_updates ops + 1 = d →
        (⟨handle, ⟨0, session⟩, ⟨T.time + d - UINT32_SIZE, ⟨handle, session⟩⟩⟩ : dispatch) ∈
            (timer_update (run_ops ops (skynet_timeout push T handle d session).2.1)).2 ∧
          (timer_update (run_ops ops (skynet_timeout push T handle d session).2.1)).1.time =
            T.time + d - UINT32_SIZE)) := by
  have h := hT.wheel_inv
  constructor
  · intro hw
    have hct : (T.time + 1) % UINT32_SIZE = 0 := by rw [hw]; decide
    refine ⟨?_, ?_, ?_, ?_⟩
    · simp only [timer_shift, hct, if_true, move_list, link_clear]
    · rw [timer_shift_time, hct]
    · rw [List.eq_nil_iff_forall_not_mem]
      intro n hn
      have hn' : n ∈ bucket (timer_shift T) (.level 3 0) := hn
      rw [mem_bucket_timer_shift T h, hct] at hn'
      obtain ⟨⟨s0, hn0⟩, hp⟩ := hn'
      have hE := (h.2 s0 n hn0).1
      rw [place_cases] at hp
      unfold UINT32_SIZE at hE
      split_ifs at hp <;> injection hp with e1 e2 <;> omega
    · intro n hn
      have hn0 : n ∈ bucket T (.level 3 0) := hn
      obtain ⟨hE, _, _, hp⟩ := h.2 _ n hn0
      have hmem := (mem_bucket_timer_shift T h (place n.expire 0) n).2 ⟨⟨_, hn0⟩, by rw [hct]⟩
      have hsmall : n.expire / 67108864 = 0 := by
        rw [place_cases] at hp
        unfold UINT32_SIZE at hE
        split_ifs at hp <;> injection hp with e1 e2 <;> omega
      rw [place_cases] at hmem
      split_ifs at hmem with c0 c1 c2
      · exact Or.inl hmem
      · exact Or.inr ⟨0, _, by norm_num, hmem⟩
      · exact Or.inr ⟨1, _, by norm_num, hmem⟩
      · exact Or.inr ⟨2, _, by norm_num, hmem⟩
  · intro push handle session d ops hd0 hd hwrap hv
    have hmod : (T.time + d) % UINT32_SIZE = T.time + d - UINT32_SIZE := by
      have := h.1
      unfold UINT32_SIZE at *
      omega
    have := fires_after_delay T h push handle session d hd0 hd ops hv
    rw [hmod] at this
    exact this

/-! ## Conservation of entries -/

theorem all_entries_eq (T : timer) :
    all_entries T = sum_slots (fun s => (bucket T s : Multiset timer_node)) := rfl

theorem sum_slots_add (f g : slot → Multiset timer_node) :
    sum_slots (fun s => f s + g s) = sum_slots f + sum_slots g := by
  simp only [sum_slots, Finset.sum_add_distrib]
  abel

theorem sum_slots_single (p : slot) (hp : p.valid) (m : Multiset timer_node) :
    sum_slots (fun s => if s = p then m else 0) = m := by
  unfold sum_slots
  cases p with
  | near k =>
    have hk : k ∈ Finset.range 256 := Finset.mem_range.2 hp
    simp only [slot.near.injEq, reduceCtorEq, if_false, Finset.sum_const_zero, add_zero]
    rw [Finset.sum_ite_eq' (Finset.range 256) k (fun _ => m), if_pos hk]
  | level a b =>
    have ha : a ∈ Finset.range 4 := Finset.mem_range.2 hp.1
    have hb : b ∈ Finset.range 64 := Finset.mem_range.2 hp.2
    simp only [slot.level.injEq, reduceCtorEq, if_false, Finset.sum_const_zero, zero_add]
    have : ∀ i ∈ Finset.range 4, (∑ j in Finset.range 64, if i = a ∧ j = b then m else 0) =
        if i = a then m else 0 := by
      intro i _
      by_cases hi : i = a
      · simp only [hi, true_and, if_true]
        rw [Finset.sum_ite_eq' (Finset.range 64) b (fun _ => m), if_pos hb]
      · simp [hi]
    rw [Finset.sum_congr rfl this, Finset.sum_ite_eq' (Finset.range 4) a (fun _ => m), if_pos ha]

theorem place_valid (E T : Nat) : (place E T).valid := by
  rw [place_cases]
  split_ifs <;> simp only [slot.valid] <;> omega

theorem all_entries_add_node (T : timer) (n : timer_node) :
    all_entries (add_node T n) = all_entries T + {n} := by
  rw [all_entries_eq, all_entries_eq,
    ← sum_slots_single (place n.expire T.time) (place_valid _ _) {n}, ← sum_slots_add]
  congr 1
  funext s
  rw [bucket_add_node]
  split_ifs
  · rw [← Multiset.coe_add]; rfl
  · simp

theorem all_entries_foldl_add_node (xs : List timer_node) (T : timer) :
    all_entries (xs.foldl add_node T) = all_entries T + (xs : Multiset timer_node) := by
  induction xs generalizing T with
  | nil => simp
  | cons x xs ih =>
    rw [List.foldl_cons, ih, all_entries_add_node, add_assoc]
    congr 1

theorem all_entries_move_list (T : timer) (level idx : Nat) (hl : level < 4) (hi : idx < 64) :
    all_entries (move_list T level idx) = all_entries T := by
  simp only [move_list, link_clear]
  rw [all_entries_foldl_add_node]
  have hv : (slot.level level idx).valid := ⟨hl, hi⟩
  rw [all_entries_eq, all_entries_eq,
    ← sum_slots_single (.level level idx) hv (T.t level idx : Multiset timer_node),
    ← sum_slots_add]
  congr 1
  funext s
  cases s with
  | near i => simp [bucket]
  | level a b =>
    by_cases ha : a = level
    · subst ha
      by_cases hb : b = idx
      · subst hb; simp [bucket]
      · simp [bucket, Function.update, hb]
    · simp [bucket, Function.update, ha]

theorem cascade_slot_valid (ct i idx : Nat) (h : cascade_slot ct = some (i, idx)) :
    i < 4 ∧ idx < 64 := by
  unfold cascade_slot at h
  split_ifs at h <;> simp only [Option.some.injEq, Prod.mk.injEq, reduceCtorEq] at h <;> omega

theorem all_entries_timer_shift (T : timer) : all_entries (timer_shift T) = all_entries T := by
  rw [timer_shift_eq]
  cases hc : cascade_slot ((T.time + 1) % UINT32_SIZE) with
  | none => rfl
  | some p =>
    obtain ⟨i, idx⟩ := p
    obtain ⟨h1, h2⟩ := cascade_slot_valid _ _ _ hc
    simp only
    rw [all_entries_move_list _ _ _ h1 h2]
    rfl

theorem dispatch_list_freed (l : List timer_node) :
    (dispatch_list l).map dispatch.freed = l := by
  induction l with
  | nil => rfl
  | cons x xs ih => simp [dispatch_list, ih]

theorem all_entries_timer_execute (T : timer) :
    all_entries T =
      all_entries (timer_execute T).1 + (((timer_execute T).2.map dispatch.freed : List timer_node)
        : Multiset timer_node) := by
  rw [timer_execute_eq]
  simp only [dispatch_list_freed]
  have hv : (slot.near (T.time % 256)).valid := Nat.mod_lt _ (by norm_num)
  rw [all_entries_eq, all_entries_eq,
    ← sum_slots_single (.near (T.time % 256)) hv (T.near (T.time % 256) : Multiset timer_node),
    ← sum_slots_add]
  congr 1
  funext s
  cases s with
  | near i =>
    by_cases hi : i = T.time % 256
    · subst hi; simp [bucket]
    · simp [bucket, Function.update, hi]
  | level a b => simp [bucket]

/-! ## The bucket list with its links: FIFO -/

namespace Ptr

theorem chain_update_of_not_mem (next : memory) (p : Option Nat) (xs : List Nat) (a : Nat)
    (v : Option Nat) (ha : a ∉ xs) (h : chain next p xs) :
    chain (Function.update next a v) p xs := by
  induction xs generalizing p with
  | nil => exact h
  | cons x xs ih =>
    obtain ⟨h1, h2⟩ := h
    have hx : x ≠ a := fun e => ha (by simp [e])
    refine ⟨h1, ?_⟩
    rw [Function.update_noteq hx]
    exact ih _ (fun hm => ha (List.mem_cons_of_mem _ hm)) h2

theorem chain_snoc (next : memory) (p : Option Nat) (ys : List Nat) (t a : Nat)
    (hnd : (ys ++ [t]).Nodup) (ha : a ∉ ys ++ [t]) (h : chain next p (ys ++ [t])) :
    chain (Function.update (Function.update next t (some a)) a none) p (ys ++ [t] ++ [a]) := by
  induction ys generalizing p with
  | nil =>
    simp only [List.nil_append, chain] at h ⊢
    have hta : t ≠ a := fun e => ha (by simp [e])
    refine ⟨h.1, ?_, ?_⟩
    · rw [Function.update_noteq hta, Function.update_same]
    · rw [Function.update_same]
  | cons y ys ih =>
    simp only [List.cons_append, chain] at h ⊢
    have hya : y ≠ a := fun e => ha (by simp [e])
    have hyt : y ≠ t := by
      intro e
      simp [e] at hnd
    refine ⟨h.1, ?_⟩
    rw [Function.update_noteq hya, Function.update_noteq hyt]
    exact ih _ (List.Nodup.of_cons hnd) (fun hm => ha (List.mem_cons_of_mem _ hm)) h.2

theorem holds_link (next : memory) (list : link_list) (xs : List Nat) (a : Nat)
    (h : holds next list xs) (ha : a ∉ xs) :
    holds (link next list a).1 (link next list a).2 (xs ++ [a]) := by
  obtain ⟨hc, ht, hnd⟩ := h
  have hnd' : (xs ++ [a]).Nodup := by
    rw [List.nodup_append]
    refine ⟨hnd, List.nodup_singleton a, ?_⟩
    intro x hx hxa
    simp only [List.mem_singleton] at hxa
    exact ha (hxa ▸ hx)
  rcases List.eq_nil_or_concat xs with rfl | ⟨ys, t, rfl⟩
  · simp only [List.getLast?_nil] at ht
    simp only [link, ht, holds, List.nil_append, chain, Function.update_same, List.getLast?_singleton,
      and_self, true_and]
    exact List.nodup_singleton a
  · simp at ht
    simp only [List.concat_eq_append] at hc hnd ha hnd' ⊢
    simp only [link, ht, holds]
    refine ⟨chain_snoc next _ ys t a hnd ha hc, ?_, hnd'⟩
    simp

theorem holds_link_all (es : List Nat) (next : memory) (list : link_list) (xs : List Nat)
    (h : holds next list xs) (hnd : (xs ++ es).Nodup) :
    holds (link_all next list es).1 (link_all next list es).2 (xs ++ es) := by
  induction es generalizing next list xs with
  | nil => simpa [link_all] using h
  | cons e es ih =>
    have he : e ∉ xs := by
      intro hm
      rw [List.nodup_append] at hnd
      exact hnd.2.2 hm (List.mem_cons_self _ _)
    have := ih _ _ (xs ++ [e]) (holds_link next list xs e h he) (by simpa using hnd)
    simpa [link_all] using this

theorem holds_empty (next : memory) : holds next empty [] := by
  simp [holds, empty, chain]

end Ptr

/-! ## Clock reconciliation -/

theorem clock_fields_add_node (T : timer) (n : timer_node) :
    clock_fields (add_node T n) = clock_fields T := by
  rw [add_node_eq]; split_ifs <;> rfl

theorem clock_fields_foldl_add_node (xs : List timer_node) (T : timer) :
    clock_fields (xs.foldl add_node T) = clock_fields T := by
  induction xs generalizing T with
  | nil => rfl
  | cons x xs ih => rw [List.foldl_cons, ih, clock_fields_add_node]

theorem clock_fields_move_list (T : timer) (level idx : Nat) :
    clock_fields (move_list T level idx) = clock_fields T := by
  simp only [move_list, clock_fields_foldl_add_node]
  rfl

theorem clock_fields_timer_shift (T : timer) : clock_fields (timer_shift T) = clock_fields T := by
  rw [timer_shift_eq]
  cases cascade_slot ((T.time + 1) % UINT32_SIZE) with
  | none => rfl
  | some p => simp only [clock_fields_move_list]; rfl

theorem clock_fields_timer_execute (T : timer) :
    clock_fields (timer_execute T).1 = clock_fields T := by
  rw [timer_execute_eq]; rfl

theorem clock_fields_timer_update (T : timer) :
    clock_fields (timer_update T).1 = clock_fields T := by
  simp only [timer_update, clock_fields_timer_execute, clock_fields_timer_shift]

theorem clock_fields_update_cycles (n : Nat) (T : timer) :
    clock_fields (update_cycles n T).1 = clock_fields T := by
  induction n generalizing T with
  | zero => rfl
  | succ k ih => simp only [update_cycles, ih, clock_fields_timer_update]

theorem update_cycles_time (n : Nat) (T : timer) (hT : T.time < UINT32_SIZE) :
    (update_cycles n T).1.time = (T.time + n) % UINT32_SIZE := by
  induction n generalizing T with
  | zero => simp only [update_cycles, Nat.add_zero]; exact (Nat.mod_eq_of_lt hT).symm
  | succ k ih =>
    simp only [update_cycles]
    rw [ih _ (by rw [timer_update_time]; exact Nat.mod_lt _ (by decide)), timer_update_time]
    unfold UINT32_SIZE
    omega

theorem update_cycles_out_ne_nil (n : Nat) (T : timer) (h : (timer_update T).2 ≠ []) :
    (update_cycles (n + 1) T).2 ≠ [] := by
  simp only [update_cycles]
  intro e
  exact h (List.append_eq_nil.1 e).1

/-- `skynet_updatetime` when the sample is ahead of the recorded one: the bookkeeping, then
`(cp - current_point) mod 2^32` update cycles. -/
theorem skynet_updatetime_eq (TI : timer) (cp : Nat) (h : TI.current_point < cp) :
    skynet_updatetime TI cp =
      update_cycles ((cp - TI.current_point) % UINT32_SIZE)
        { TI with
          current_point := cp
          current := (TI.current + (cp - TI.current_point) % UINT32_SIZE) % UINT32_SIZE
          starttime :=
            if (TI.current + (cp - TI.current_point) % UINT32_SIZE) % UINT32_SIZE < TI.current
            then (TI.starttime + 42949672) % UINT32_SIZE else TI.starttime } := by
  simp only [skynet_updatetime]
  rw [if_neg (by omega), if_pos (by omega), skynet_updatetime_loop_eq _ _ _ _ _ (by omega)]
  simp only [List.nil_append, Prod.mk.eta]
  congr 1
  split_ifs <;> rfl

theorem skynet_updatetime_time (TI : timer) (cp : Nat) (h : TI.current_point < cp)
    (hT : TI.time < UINT32_SIZE) :
    (skynet_updatetime TI cp).1.time = (TI.time + (cp - TI.current_point)) % UINT32_SIZE := by
  rw [skynet_updatetime_eq TI cp h]
  refine (update_cycles_time _ _ ?_).trans ?_
  · exact hT
  · show (TI.time + (cp - TI.current_point) % UINT32_SIZE) % UINT32_SIZE = _
    unfold UINT32_SIZE
    omega

theorem reachable_sample_wheel : Reachable sample_wheel :=
  Reachable.timeout _ _ 7 1 9 (Reachable.init 0 0 0) (by decide) (by decide)

theorem valid_updates (n : Nat) : ∀ o ∈ List.replicate n op.update, o.valid := by
  intro o ho
  rw [List.eq_of_mem_replicate ho]
  trivial

theorem init_updatetime_time (cp : Nat) (h : 0 < cp) (h2 : cp < UINT32_SIZE) :
    (skynet_updatetime (skynet_timer_init 0 0 0) cp).1.time = cp := by
  rw [skynet_updatetime_time (skynet_timer_init 0 0 0) cp h (by decide)]
  show (0 + (cp - 0)) % UINT32_SIZE = cp
  unfold UINT32_SIZE at *
  omega


/-! ## Claims on conservation, submission and the clock -/

/-- Claim C5: `add_node` adds exactly the inserted entry to the multiset of all stored entries,
`move_list` (on a bucket that exists) and `timer_shift` leave that multiset unchanged,
`timer_execute` and `timer_update` remove from it exactly the entries they dispatch, one
dispatch per drained entry of the near slot, and in a reachable wheel an entry is stored in one
bucket only. -/
theorem entries_conserved (T : timer) (n : timer_node) (level idx : Nat) :
    all_entries (add_node T n) = all_entries T + {n} ∧
    (level < 4 → idx < 64 → all_entries (move_list T level idx) = all_entries T) ∧
    all_entries (timer_shift T) = all_entries T ∧
    (timer_execute T).2 = dispatch_list (T.near (T.time &&& TIME_NEAR_MASK)) ∧
    all_entries T = all_entries (timer_execute T).1 +
      (((timer_execute T).2.map dispatch.freed : List timer_node) : Multiset timer_node) ∧
    all_entries T = all_entries (timer_update T).1 +
      (((timer_update T).2.map dispatch.freed : List timer_node) : Multiset timer_node) ∧
    (Reachable T → ∀ s s', n ∈ bucket T s → n ∈ bucket T s' → s = s') := by
  refine ⟨all_entries_add_node T n, all_entries_move_list T level idx,
    all_entries_timer_shift T, ?_, all_entries_timer_execute T, ?_, ?_⟩
  · have m1 : TIME_NEAR_MASK = 255 := by decide
    rw [timer_execute_eq, m1, land_255]
  · have e1 := all_entries_timer_execute T
    have e2 := all_entries_timer_shift (timer_execute T).1
    have e3 := all_entries_timer_execute (timer_shift (timer_execute T).1)
    simp only [timer_update, List.map_append, ← Multiset.coe_add]
    rw [e1, ← e2, e3]
    abel
  · intro hT s s' h1 h2
    have h := hT.wheel_inv
    rw [(h.2 s n h1).2.2.2, (h.2 s' n h2).2.2.2]

/-- Claim C8: `skynet_timeout` with `time = 0` makes exactly one push, to the given handle with
the given session, returns `-1` when the push reports a failure and the session otherwise, and
leaves the wheel unchanged. -/
theorem zero_delay_submission (push : Nat → skynet_message → Int) (TI : timer) (handle : Nat)
    (session : Int) :
    (skynet_timeout push TI handle 0 session).2.2 = [(handle, ⟨0, session⟩)] ∧
    (skynet_timeout push TI handle 0 session).1 =
      (if push handle ⟨0, session⟩ ≠ 0 then -1 else session) ∧
    (skynet_timeout push TI handle 0 session).2.1 = TI := by
  simp only [skynet_timeout, if_true]
  split_ifs <;> exact ⟨rfl, rfl, rfl⟩

/-- Claim C9: `skynet_timeout` with a delay `0 < time < 2^31` returns the session whatever the
push would answer, makes no push, and changes the wheel only by `add_node` of one entry with
payload `(handle, session)` and expiry `(TI.time + time) mod 2^32`; the counter, `current`,
`starttime` and the clock samples are unchanged. -/
theorem nonzero_delay_submission (push : Nat → skynet_message → Int) (TI : timer) (handle : Nat)
    (time session : Int) (h0 : 0 < time) (h1 : time < 2147483648) :
    (skynet_timeout push TI handle time session).1 = session ∧
    (skynet_timeout push TI handle time session).2.2 = [] ∧
    (skynet_timeout push TI handle time session).2.1 =
      add_node TI ⟨(TI.time + time.toNat) % UINT32_SIZE, ⟨handle, session⟩⟩ ∧
    (skynet_timeout push TI handle time session).2.1.time = TI.time ∧
    (skynet_timeout push TI handle time session).2.1.current = TI.current ∧
    (skynet_timeout push TI handle time session).2.1.starttime = TI.starttime ∧
    (skynet_timeout push TI handle time session).2.1.current_point = TI.current_point := by
  have hz : time ≠ 0 := by omega
  obtain ⟨d, rfl⟩ := Int.eq_ofNat_of_zero_le (le_of_lt h0)
  have hw : (skynet_timeout push TI handle d session).2.1 =
      add_node TI ⟨(TI.time + d) % UINT32_SIZE, ⟨handle, session⟩⟩ := by
    rw [skynet_timeout_wheel, if_neg hz, timer_add_eq]
  have hc := clock_fields_add_node TI ⟨(TI.time + d) % UINT32_SIZE, ⟨handle, session⟩⟩
  simp only [clock_fields, Prod.mk.injEq] at hc
  refine ⟨?_, ?_, ?_, ?_, ?_, ?_, ?_⟩
  · simp only [skynet_timeout, if_neg hz]
  · simp only [skynet_timeout, if_neg hz]
  · rw [hw]; rfl
  · rw [hw, add_node_time]
  · rw [hw]; exact hc.1
  · rw [hw]; exact hc.2.1
  · rw [hw]; exact hc.2.2.1

/-- Claim C7: for a bucket list that holds the nodes `xs`, `link_clear` returns the pointer to
the first of them (null when there is none), from which exactly `xs` is chained in the order of
appending, and leaves the list empty with `tail` referring to the sentinel; `link` of a node not
in the list makes the list hold `xs` followed by the node and sets the node's `next` to null;
appending distinct nodes `es` to the empty list and draining yields `es` in this order.  The
list view used by the wheel is the abstraction: `link` appends, `link_clear` returns the list. -/
theorem bucket_list_fifo (next : Ptr.memory) (list : Ptr.link_list) (xs : List Nat)
    (h : Ptr.holds next list xs) (a : Nat) (ha : a ∉ xs) (es : List Nat) (hes : es.Nodup)
    (data : Nat → timer_node) :
    (Ptr.link_clear list).1 = xs.head? ∧
    Ptr.chain next (Ptr.link_clear list).1 xs ∧
    (Ptr.link_clear list).2 = { head_next := none, tail := Ptr.ref.head } ∧
    Ptr.holds next (Ptr.link_clear list).2 [] ∧
    Ptr.holds (Ptr.link next list a).1 (Ptr.link next list a).2 (xs ++ [a]) ∧
    (Ptr.link next list a).1 a = none ∧
    link (xs.map data) (data a) = (xs ++ [a]).map data ∧
    link_clear (xs.map data) = (xs.map data, []) ∧
    Ptr.holds (Ptr.link_all next Ptr.empty es).1 (Ptr.link_all next Ptr.empty es).2 es ∧
    Ptr.chain (Ptr.link_all next Ptr.empty es).1
      (Ptr.link_clear (Ptr.link_all next Ptr.empty es).2).1 es := by
  have hall := Ptr.holds_link_all es next Ptr.empty [] (Ptr.holds_empty next) (by simpa using hes)
  simp only [List.nil_append] at hall
  refine ⟨?_, h.1, rfl, Ptr.holds_empty next, Ptr.holds_link next list xs a h ha, ?_, ?_, rfl,
    hall, hall.1⟩
  · have hc := h.1
    cases xs with
    | nil => exact hc
    | cons x xs => exact hc.1
  · unfold Ptr.link
    cases list.tail <;> simp
  · simp [link]

/-- Claim C10 (amended): when the new sample `cp` is ahead of the recorded one,
`skynet_updatetime` runs `(cp - current_point) mod 2^32` single-tick update cycles after its
bookkeeping, so that the counter and `current` advance by `cp - current_point` modulo `2^32`
and `current_point` becomes `cp`; when `cp` equals the recorded sample nothing changes. -/
theorem updatetime_cycles (TI : timer) (cp : Nat) :
    (cp = TI.current_point → skynet_updatetime TI cp = (TI, [])) ∧
    (TI.current_point < cp →
      skynet_updatetime TI cp =
        update_cycles ((cp - TI.current_point) % UINT32_SIZE)
          { TI with
            current_point := cp
            current := (TI.current + (cp - TI.current_point) % UINT32_SIZE) % UINT32_SIZE
            starttime :=
              if (TI.current + (cp - TI.current_point) % UINT32_SIZE) % UINT32_SIZE < TI.current
              then (TI.starttime + 42949672) % UINT32_SIZE else TI.starttime } ∧
      (skynet_updatetime TI cp).1.current_point = cp ∧
      (skynet_updatetime TI cp).1.current =
        (TI.current + (cp - TI.current_point)) % UINT32_SIZE ∧
      (TI.time < UINT32_SIZE →
        (skynet_updatetime TI cp).1.time = (TI.time + (cp - TI.current_point)) % UINT32_SIZE)) ∧
    (∀ T : timer, (timer_update T).1.time = (T.time + 1) % UINT32_SIZE) ∧
    (∀ (n : Nat) (T : timer),
      update_cycles (n + 1) T =
        ((update_cycles n (timer_update T).1).1,
          (timer_update T).2 ++ (update_cycles n (timer_update T).1).2)) := by
  refine ⟨?_, ?_, timer_update_time, fun n T => rfl⟩
  · intro e
    simp only [skynet_updatetime, e, lt_irrefl, if_false, ne_eq, not_true_eq_false]
  · intro hlt
    have he := skynet_updatetime_eq TI cp hlt
    have hc := clock_fields_update_cycles ((cp - TI.current_point) % UINT32_SIZE)
      { TI with
        current_point := cp
        current := (TI.current + (cp - TI.current_point) % UINT32_SIZE) % UINT32_SIZE
        starttime :=
          if (TI.current + (cp - TI.current_point) % UINT32_SIZE) % UINT32_SIZE < TI.current
          then (TI.starttime + 42949672) % UINT32_SIZE else TI.starttime }
    rw [← he] at hc
    simp only [clock_fields, Prod.mk.injEq] at hc
    refine ⟨he, hc.2.2.1, ?_, ?_⟩
    · rw [hc.1]
      unfold UINT32_SIZE
      omega
    · intro hT
      rw [he]
      refine (update_cycles_time _ _ ?_).trans ?_
      · exact hT
      · show (TI.time + (cp - TI.current_point) % UINT32_SIZE) % UINT32_SIZE = _
        unfold UINT32_SIZE
        omega

/-- Claim C10 as stated fails when the samples are `2^32` centiseconds apart: on a wheel with
one entry due after 1 tick, `skynet_updatetime` runs no cycle at all (nothing is dispatched, the
entry stays in its near slot, the counter is unchanged), whereas `cp - current_point` update
cycles dispatch the entry. -/
theorem updatetime_cycles_counterexample :
    sample_wheel.current_point < 4294967296 ∧
    (skynet_updatetime sample_wheel 4294967296).2 = [] ∧
    (skynet_updatetime sample_wheel 4294967296).1.near 1 = [⟨1, ⟨7, 9⟩⟩] ∧
    (skynet_updatetime sample_wheel 4294967296).1.time = 0 ∧
    (update_cycles (4294967296 - sample_wheel.current_point)
      { sample_wheel with current_point := 4294967296 }).2 ≠ [] ∧
    skynet_updatetime sample_wheel 4294967296 ≠
      update_cycles (4294967296 - sample_wheel.current_point)
        { sample_wheel with current_point := 4294967296 } := by
  have h5 : (update_cycles (4294967296 - sample_wheel.current_point)
      { sample_wheel with current_point := 4294967296 }).2 ≠ [] :=
    update_cycles_out_ne_nil 4294967295 _ (by decide)
  refine ⟨by decide, by decide, by decide, by decide, h5, ?_⟩
  intro e
  have e2 := congrArg Prod.snd e
  rw [show (skynet_updatetime sample_wheel 4294967296).2 = [] by decide] at e2
  exact h5 e2.symm

/-! ## Instances of the theorems that carry hypotheses -/

theorem timeout_fires_after_delay_witness :
    Reachable (skynet_timer_init 0 0 0) ∧ 5 < 2147483648 ∧
    (⟨7, ⟨0, 9⟩, ⟨5, ⟨7, 9⟩⟩⟩ : dispatch) ∈
      (timer_update (run_ops (List.replicate 4 op.update)
        (skynet_timeout (fun _ _ => 0) (skynet_timer_init 0 0 0) 7 ((5 : Nat) : Int) 9).2.1)).2 :=
  ⟨Reachable.init 0 0 0, by decide,
    ((timeout_fires_after_delay (skynet_timer_init 0 0 0) (Reachable.init 0 0 0) (fun _ _ => 0)
      7 9 5 (by decide) (List.replicate 4 op.update) (valid_updates 4)).2.2 (by decide)).1⟩

theorem cascade_reaches_near_witness :
    (∃ i j, (⟨1000000, ⟨7, 9⟩⟩ : timer_node) ∈
      (skynet_timeout (fun _ _ => 0) (skynet_timer_init 0 0 0) 7 ((1000000 : Nat) : Int) 9).2.1.t
        i j) ∧
    (⟨((skynet_updatetime (skynet_timer_init 0 0 0) 255).1.time + 2) % UINT32_SIZE, ⟨7, 9⟩⟩ :
        timer_node) ∈
      (run_ops [op.update] (skynet_timeout (fun _ _ => 0)
        (skynet_updatetime (skynet_timer_init 0 0 0) 255).1 7 ((2 : Nat) : Int) 9).2.1).near
        (((skynet_updatetime (skynet_timer_init 0 0 0) 255).1.time + 2) % UINT32_SIZE % 256) :=
  ⟨(cascade_reaches_near (skynet_timer_init 0 0 0) (Reachable.init 0 0 0) (fun _ _ => 0) 7 9
      1000000 (by decide) (by decide) [] (valid_updates 0) (by decide)).1 (by decide),
    ((cascade_reaches_near (skynet_updatetime (skynet_timer_init 0 0 0) 255).1
      (Reachable.updatetime _ 255 (Reachable.init 0 0 0)) (fun _ _ => 0) 7 9
      2 (by decide) (by decide) [op.update] (valid_updates 1) (by decide)).2.1
      (by
        simp only [run_ops]
        rw [timer_update_time, skynet_timeout_time,
          init_updatetime_time 255 (by decide) (by decide)]
        decide)).1⟩

theorem entries_conserved_witness :
    all_entries (move_list sample_wheel 0 1) = all_entries sample_wheel :=
  (entries_conserved sample_wheel ⟨1, ⟨7, 9⟩⟩ 0 1).2.1 (by decide) (by decide)

theorem placement_invariant_witness :
    (⟨1, ⟨7, 9⟩⟩ : timer_node) ∈ bucket sample_wheel (.near 1) ∧
    0 < remaining 1 sample_wheel.time ∧ remaining 1 sample_wheel.time < 2147483648 :=
  ⟨by decide,
    (placement_invariant sample_wheel reachable_sample_wheel (.near 1) ⟨1, ⟨7, 9⟩⟩
      (by decide)).2.2.1,
    (placement_invariant sample_wheel reachable_sample_wheel (.near 1) ⟨1, ⟨7, 9⟩⟩
      (by decide)).2.2.2.1⟩

theorem bucket_list_fifo_witness :
    Ptr.holds (fun _ => none) { head_next := some 3, tail := Ptr.ref.node 3 } [3] ∧
    Ptr.holds (Ptr.link (fun _ => none) { head_next := some 3, tail := Ptr.ref.node 3 } 5).1
      (Ptr.link (fun _ => none) { head_next := some 3, tail := Ptr.ref.node 3 } 5).2 [3, 5] ∧
    Ptr.chain (Ptr.link_all (fun _ => none) Ptr.empty [1, 2]).1
      (Ptr.link_clear (Ptr.link_all (fun _ => none) Ptr.empty [1, 2]).2).1 [1, 2] :=
  ⟨by decide,
    (bucket_list_fifo (fun _ => none) { head_next := some 3, tail := Ptr.ref.node 3 } [3]
      (by decide) 5 (by decide) [1, 2] (by decide) (fun _ => ⟨0, ⟨0, 0⟩⟩)).2.2.2.2.1,
    (bucket_list_fifo (fun _ => none) { head_next := some 3, tail := Ptr.ref.node 3 } [3]
      (by decide) 5 (by decide) [1, 2] (by decide) (fun _ => ⟨0, ⟨0, 0⟩⟩)).2.2.2.2.2.2.2.2.2⟩

theorem nonzero_delay_submission_witness :
    (skynet_timeout (fun _ _ => -1) (skynet_timer_init 0 0 0) 7 5 9).1 = 9 ∧
    (skynet_timeout (fun _ _ => -1) (skynet_timer_init 0 0 0) 7 5 9).2.2 = [] :=
  ⟨(nonzero_delay_submission (fun _ _ => -1) (skynet_timer_init 0 0 0) 7 5 9 (by decide)
      (by decide)).1,
    (nonzero_delay_submission (fun _ _ => -1) (skynet_timer_init 0 0 0) 7 5 9 (by decide)
      (by decide)).2.1⟩

theorem updatetime_cycles_witness :
    sample_wheel.current_point < 3 ∧ (skynet_updatetime sample_wheel 3).1.current_point = 3 ∧
    (skynet_updatetime sample_wheel 3).1.current = 3 :=
  ⟨by decide, ((updatetime_cycles sample_wheel 3).2.1 (by decide)).2.1,
    ((updatetime_cycles sample_wheel 3).2.1 (by decide)).2.2.1⟩

theorem wraparound_cascade_witness :
    (skynet_updatetime (skynet_timer_init 0 0 0) 4294967295).1.time = 4294967295 ∧
    (timer_shift (skynet_updatetime (skynet_timer_init 0 0 0) 4294967295).1).time = 0 ∧
    (timer_update (run_ops (List.replicate 4 op.update)
      (skynet_timeout (fun _ _ => 0) (skynet_updatetime (skynet_timer_init 0 0 0) 4294967295).1
        7 ((5 : Nat) : Int) 9).2.1)).1.time =
        (skynet_updatetime (skynet_timer_init 0 0 0) 4294967295).1.time + 5 - UINT32_SIZE :=
  ⟨init_updatetime_time 4294967295 (by decide) (by decide),
    ((wraparound_cascade _ (Reachable.updatetime _ 4294967295 (Reachable.init 0 0 0))).1
      (init_updatetime_time 4294967295 (by decide) (by decide))).2.1,
    (((wraparound_cascade _ (Reachable.updatetime _ 4294967295 (Reachable.init 0 0 0))).2
      (fun _ _ => 0) 7 9 5
      (List.replicate 4 op.update) (by decide) (by decide)
      (by rw [init_updatetime_time 4294967295 (by decide) (by decide)]; decide)
      (valid_updates 4)).2 (by decide)).2⟩

/-! ## Clock regression and counter wraparound -/

theorem timer_shift_target_eq (T : timer) :
    timer_shift_target T = cascade_slot ((T.time + 1) % UINT32_SIZE) := by
  unfold timer_shift_target
  by_cases h : (T.time + 1) % UINT32_SIZE = 0
  · simp [h, cascade_slot]
  · simp only [h, if_false, timer_shift_loop_eq _ h]

/-- Claim C11: when the new sample `cp` is smaller than the recorded one, `skynet_updatetime`
returns at once: it runs no update cycle and dispatches nothing, and the wheel is unchanged
except that `current_point` becomes `cp`; the counter, `current`, `starttime` and every bucket
keep their values. -/
theorem clock_regression (TI : timer) (cp : Nat) (h : cp < TI.current_point) :
    skynet_updatetime TI cp = ({ TI with current_point := cp }, []) ∧
    (skynet_updatetime TI cp).2 = [] ∧
    (skynet_updatetime TI cp).1.time = TI.time ∧
    (skynet_updatetime TI cp).1.current = TI.current ∧
    (skynet_updatetime TI cp).1.starttime = TI.starttime ∧
    (skynet_updatetime TI cp).1.near = TI.near ∧
    (skynet_updatetime TI cp).1.t = TI.t ∧
    (skynet_updatetime TI cp).1.current_point = cp := by
  have e : skynet_updatetime TI cp = ({ TI with current_point := cp }, []) := by
    simp only [skynet_updatetime, if_pos h]
  rw [e]
  exact ⟨rfl, rfl, rfl, rfl, rfl, rfl, rfl, rfl⟩

/-- Claim C12: in `skynet_updatetime` with an elapsed `diff = cp - current_point` between 1
and `2^32 - 1` and a 32-bit `current`, the new `current` is `(current + diff) mod 2^32`, and
`starttime` becomes `(starttime + 42949672) mod 2^32` (`42949672 = 0xffffffff / 100`) exactly
when `current + diff ≥ 2^32`; otherwise `starttime` is unchanged. -/
theorem counter_wraparound (TI : timer) (cp : Nat) (h : TI.current_point < cp)
    (hd : cp - TI.current_point < UINT32_SIZE) (hc : TI.current < UINT32_SIZE) :
    (skynet_updatetime TI cp).1.current = (TI.current + (cp - TI.current_point)) % UINT32_SIZE ∧
    (UINT32_SIZE ≤ TI.current + (cp - TI.current_point) →
      (skynet_updatetime TI cp).1.starttime = (TI.starttime + 42949672) % UINT32_SIZE) ∧
    (TI.current + (cp - TI.current_point) < UINT32_SIZE →
      (skynet_updatetime TI cp).1.starttime = TI.starttime) ∧
    (4294967295 / 100 = 42949672) ∧
    (TI.starttime + 42949672 < UINT32_SIZE →
      ((skynet_updatetime TI cp).1.starttime ≠ TI.starttime ↔
        UINT32_SIZE ≤ TI.current + (cp - TI.current_point)) ∧
      (UINT32_SIZE ≤ TI.current + (cp - TI.current_point) →
        (skynet_updatetime TI cp).1.starttime = TI.starttime + 42949672)) := by
  have he := skynet_updatetime_eq TI cp h
  have hcf := clock_fields_update_cycles ((cp - TI.current_point) % UINT32_SIZE)
    { TI with
      current_point := cp
      current := (TI.current + (cp - TI.current_point) % UINT32_SIZE) % UINT32_SIZE
      starttime :=
        if (TI.current + (cp - TI.current_point) % UINT32_SIZE) % UINT32_SIZE < TI.current
        then (TI.starttime + 42949672) % UINT32_SIZE else TI.starttime }
  rw [← he] at hcf
  simp only [clock_fields, Prod.mk.injEq] at hcf
  obtain ⟨h1, h2, _, _⟩ := hcf
  have hmod : (cp - TI.current_point) % UINT32_SIZE = cp - TI.current_point :=
    Nat.mod_eq_of_lt hd
  rw [hmod] at h1 h2
  unfold UINT32_SIZE at *
  refine ⟨h1, ?_, ?_, by decide, ?_⟩
  · intro ho
    rw [h2, if_pos (by omega)]
  · intro hn
    rw [h2, if_neg (by omega)]
  · intro hs
    constructor
    · rw [h2]
      split_ifs with hlt
      · constructor
        · intro _; omega
        · intro _; omega
      · constructor
        · intro hne; exact absurd rfl hne
        · intro ho; omega
    · intro ho
      rw [h2, if_pos (by omega)]
      omega

/-! ## Cascade selection, update cycle and near test -/

/-- Claim C14: `timer_shift` sets the counter to `ct = (time + 1) mod 2^32`.  If `ct = 0` it
cascades `t[3][0]`; if `ct ≠ 0` and `ct mod 256 ≠ 0` it changes nothing else; if `ct ≠ 0` and
`ct mod 256 = 0` it cascades the single bucket `t[i][(ct >> (8 + 6*i)) mod 64]`, where `i ≤ 3` is
the first level whose slot index in `ct` is nonzero.  In every case `move_list` is called at most
once. -/
theorem timer_shift_selection (T : timer) :
    (timer_shift T).time = (T.time + 1) % UINT32_SIZE ∧
    ((T.time + 1) % UINT32_SIZE = 0 →
      timer_shift T = move_list { T with time := (T.time + 1) % UINT32_SIZE } 3 0) ∧
    ((T.time + 1) % UINT32_SIZE ≠ 0 → (T.time + 1) % UINT32_SIZE % 256 ≠ 0 →
      timer_shift T = { T with time := (T.time + 1) % UINT32_SIZE }) ∧
    ((T.time + 1) % UINT32_SIZE ≠ 0 → (T.time + 1) % UINT32_SIZE % 256 = 0 →
      ∃ i, i < 4 ∧ (((T.time + 1) % UINT32_SIZE) >>> (8 + 6 * i)) % 64 ≠ 0 ∧
        (∀ j, j < i → (((T.time + 1) % UINT32_SIZE) >>> (8 + 6 * j)) % 64 = 0) ∧
        timer_shift T =
          move_list { T with time := (T.time + 1) % UINT32_SIZE } i
            ((((T.time + 1) % UINT32_SIZE) >>> (8 + 6 * i)) % 64)) ∧
    (timer_shift T = { T with time := (T.time + 1) % UINT32_SIZE } ∨
      ∃ i idx, i < 4 ∧ idx < 64 ∧
        timer_shift T = move_list { T with time := (T.time + 1) % UINT32_SIZE } i idx) := by
  have hlt : (T.time + 1) % UINT32_SIZE < 4294967296 := Nat.mod_lt _ (by decide)
  generalize hct : (T.time + 1) % UINT32_SIZE = ct at hlt
  have hse := timer_shift_eq T
  rw [hct] at hse
  refine ⟨by rw [timer_shift_time, hct], ?_, ?_, ?_, ?_⟩
  · intro h0
    rw [hse, h0]
    rfl
  · intro h0 h1
    rw [hse]
    have : cascade_slot ct = none := by simp [cascade_slot, h0, h1]
    rw [this]
  · intro h0 h1
    simp only [Nat.shiftRight_eq_div_pow]
    rcases cascade_slot_cases ct h0 with ⟨c, _⟩ | ⟨c, c', e⟩ | ⟨c, c', e⟩ | ⟨c, c', e⟩ |
      ⟨c, c', e⟩ | ⟨c, _⟩
    · exact absurd h1 c
    · refine ⟨0, by norm_num, c', ?_, ?_⟩
      · intro j hj; omega
      · rw [hse, e]
    · refine ⟨1, by norm_num, c', ?_, ?_⟩
      · intro j hj
        have : j = 0 := by omega
        subst this
        norm_num
        omega
      · rw [hse, e]
    · refine ⟨2, by norm_num, c', ?_, ?_⟩
      · intro j hj
        have : j = 0 ∨ j = 1 := by omega
        rcases this with rfl | rfl <;> norm_num <;> omega
      · rw [hse, e]
    · refine ⟨3, by norm_num, c', ?_, ?_⟩
      · intro j hj
        have : j = 0 ∨ j = 1 ∨ j = 2 := by omega
        rcases this with rfl | rfl | rfl <;> norm_num <;> omega
      · rw [hse, e]
    · omega
  · rw [hse]
    cases hc : cascade_slot ct with
    | none => exact Or.inl rfl
    | some p =>
      obtain ⟨i, idx⟩ := p
      obtain ⟨h1, h2⟩ := cascade_slot_valid _ _ _ hc
      exact Or.inr ⟨i, idx, h1, h2, rfl⟩

/-- Claim C16: `timer_update` dispatches, front to back, the entries of `near[time mod 256]`,
then runs `timer_shift` (counter plus one, with its cascade), then dispatches, front to back, the
entries that `near[(time + 1) mod 256]` holds after the shift.  On return that near slot is
empty and every other bucket is as `timer_shift` left it: dispatch removed nothing else. -/
theorem timer_update_cycle (T : timer) :
    (timer_execute T).1 = { T with near := Function.update T.near (T.time % 256) [] } ∧
    (timer_update T).2 =
      dispatch_list (T.near (T.time % 256)) ++
        dispatch_list ((timer_shift (timer_execute T).1).near ((T.time + 1) % 256)) ∧
    (timer_update T).2.map dispatch.freed =
      T.near (T.time % 256) ++ (timer_shift (timer_execute T).1).near ((T.time + 1) % 256) ∧
    (timer_update T).1.time = (T.time + 1) % UINT32_SIZE ∧
    (timer_update T).1.near ((T.time + 1) % 256) = [] ∧
    (∀ s, s ≠ .near ((T.time + 1) % 256) →
      bucket (timer_update T).1 s = bucket (timer_shift (timer_execute T).1) s) := by
  have hm : (T.time + 1) % UINT32_SIZE % 256 = (T.time + 1) % 256 := by
    unfold UINT32_SIZE; omega
  have h2 : (timer_update T).2 =
      dispatch_list (T.near (T.time % 256)) ++
        dispatch_list ((timer_shift (timer_execute T).1).near ((T.time + 1) % 256)) := by
    simp only [timer_update]
    rw [timer_execute_eq (timer_shift (timer_execute T).1), timer_shift_time,
      timer_execute_time, hm, timer_execute_eq T]
  have hb : ∀ s, bucket (timer_update T).1 s =
      if s = .near ((T.time + 1) % 256) then []
      else bucket (timer_shift (timer_execute T).1) s := by
    intro s
    simp only [timer_update]
    rw [bucket_timer_execute, timer_shift_time, timer_execute_time, hm]
  refine ⟨by rw [timer_execute_eq], h2, ?_, timer_update_time T, ?_, ?_⟩
  · rw [h2, List.map_append, dispatch_list_freed, dispatch_list_freed]
  · have := hb (.near ((T.time + 1) % 256))
    rw [if_pos rfl] at this
    exact this
  · intro s hs
    rw [hb, if_neg hs]

/-- Claim C17 (amended): the test `(E | 0xFF) = (T | 0xFF)` of `add_node` holds, and the node is
appended to the near ring, exactly when the expiry and the counter lie in the same aligned block
of 256 ticks.  For `E = (T + d) mod 2^32` with `d < 2^31` this is `d < 256 - T mod 256`; it
implies `d < 256`, not conversely. -/
theorem near_test_same_block (TI : timer) (ev : timer_event) (d : Nat)
    (hT : TI.time < UINT32_SIZE) (hd : d < 2147483648) :
    ((((TI.time + d) % UINT32_SIZE) ||| TIME_NEAR_MASK) = (TI.time ||| TIME_NEAR_MASK) ↔
      d < 256 - TI.time % 256) ∧
    ((((TI.time + d) % UINT32_SIZE) ||| TIME_NEAR_MASK) = (TI.time ||| TIME_NEAR_MASK) →
      d < 256) ∧
    (d < 256 - TI.time % 256 →
      (add_node TI ⟨(TI.time + d) % UINT32_SIZE, ev⟩).near ((TI.time + d) % UINT32_SIZE % 256) =
        TI.near ((TI.time + d) % UINT32_SIZE % 256) ++ [⟨(TI.time + d) % UINT32_SIZE, ev⟩] ∧
      (add_node TI ⟨(TI.time + d) % UINT32_SIZE, ev⟩).t = TI.t) ∧
    (¬ d < 256 - TI.time % 256 →
      (add_node TI ⟨(TI.time + d) % UINT32_SIZE, ev⟩).near = TI.near) := by
  have m1 : TIME_NEAR_MASK = 255 := by decide
  rw [m1, lor_255]
  have key : (TI.time + d) % UINT32_SIZE / 256 = TI.time / 256 ↔ d < 256 - TI.time % 256 := by
    unfold UINT32_SIZE at *
    constructor <;> intro h <;> omega
  refine ⟨key, ?_, ?_, ?_⟩
  · intro h
    have := key.1 h
    omega
  · intro h
    rw [add_node_eq]
    simp only [if_pos (key.2 h), Function.update_same, and_self]
  · intro h
    rw [add_node_eq]
    have : ¬ (TI.time + d) % UINT32_SIZE / 256 = TI.time / 256 := fun e => h (key.1 e)
    simp only [if_neg this]

/-- Claim C17 as stated fails at counter 255 and delay 1: the delay is below 256, yet the test
of `add_node` fails for the expiry 256 and the node is appended to `t[0][1]`, not to the near
ring. -/
theorem near_test_same_block_counterexample :
    (1 : Nat) < 256 ∧ (((255 + 1) % UINT32_SIZE) ||| 255) ≠ (255 ||| 255) ∧
    (add_node { timer_create_timer with time := 255 } ⟨(255 + 1) % UINT32_SIZE, ⟨7, 9⟩⟩).t 0 1 =
      [⟨256, ⟨7, 9⟩⟩] ∧
    (add_node { timer_create_timer with time := 255 } ⟨(255 + 1) % UINT32_SIZE, ⟨7, 9⟩⟩).near
      (256 % 256) = [] := by
  decide


/-- Claim C19: in a reachable wheel the buckets `t[0][0]`, `t[1][0]` and `t[2][0]` are empty, and
the bucket that `timer_shift` cascades has a nonzero slot index unless it is `t[3][0]`, which is
cascaded when the counter wraps to 0. -/
theorem skipped_slots_empty (T : timer) (hT : Reachable T) :
    T.t 0 0 = [] ∧ T.t 1 0 = [] ∧ T.t 2 0 = [] ∧
    (∀ i idx, timer_shift_target T = some (i, idx) →
      (idx ≠ 0 ∨ (i = 3 ∧ (T.time + 1) % UINT32_SIZE = 0)) ∧ i < 4 ∧ idx < 64) := by
  have h := hT.wheel_inv
  have empty : ∀ i, i < 3 → T.t i 0 = [] := by
    intro i hi
    rw [List.eq_nil_iff_forall_not_mem]
    intro n hn
    have hn' : n ∈ bucket T (.level i 0) := hn
    obtain ⟨hE, h1, h2, hp⟩ := h.2 _ n hn'
    have hlt := h.1
    rw [place_cases] at hp
    unfold remaining UINT32_SIZE at *
    split_ifs at hp <;> injection hp with e1 e2 <;> omega
  refine ⟨empty 0 (by norm_num), empty 1 (by norm_num), empty 2 (by norm_num), ?_⟩
  intro i idx ht
  rw [timer_shift_target_eq] at ht
  refine ⟨?_, cascade_slot_valid _ _ _ ht⟩
  unfold cascade_slot at ht
  split_ifs at ht with c0 <;>
    simp only [Option.some.injEq, Prod.mk.injEq, reduceCtorEq] at ht
  · exact Or.inr ⟨ht.1.symm, c0⟩
  all_goals (left; omega)

/-! ## Bounds of the cascade walk -/

theorem timer_shift_walk_step (ct fuel mask time i : Nat) (rest : List (Nat × Nat × Nat))
    (h : ∀ f, timer_shift_walk ct f (mask <<< TIME_LEVEL_SHIFT) (time >>> TIME_LEVEL_SHIFT)
      (i + 1) <+: rest) :
    timer_shift_walk ct fuel mask time i <+: (mask, time, i) :: rest := by
  cases fuel with
  | zero => exact List.nil_prefix
  | succ f =>
    simp only [timer_shift_walk]
    rw [List.prefix_cons_inj]
    split_ifs
    · exact List.nil_prefix
    · exact h f
    · exact List.nil_prefix

theorem timer_shift_walk_last (ct : Nat) (h : ct ≠ 0) (h32 : ct < UINT32_SIZE) (fuel t3 : Nat)
    (ht : t3 = ct / 67108864) :
    timer_shift_walk ct fuel 67108864 t3 3 <+: [(67108864, t3, 3)] := by
  cases fuel with
  | zero => exact List.nil_prefix
  | succ f =>
    have a4 : ct &&& (67108864 - 1) = ct % 67108864 := land_mask ct 26
    have m2 : TIME_LEVEL_MASK = 63 := by decide
    simp only [timer_shift_walk, a4, m2, land_63]
    rw [List.prefix_cons_inj]
    unfold UINT32_SIZE at h32
    split_ifs with c1 c2
    · exact List.nil_prefix
    · exfalso; omega
    · exact List.nil_prefix

theorem timer_shift_walk_prefix (ct : Nat) (h : ct ≠ 0) (h32 : ct < UINT32_SIZE) (fuel : Nat) :
    timer_shift_walk ct fuel TIME_NEAR (ct >>> TIME_NEAR_SHIFT) 0 <+:
      [(256, ct / 256, 0), (16384, ct / 256 / 64, 1), (1048576, ct / 256 / 64 / 64, 2),
        (67108864, ct / 256 / 64 / 64 / 64, 3)] := by
  have m0 : TIME_NEAR = 256 := by decide
  have m3 : TIME_NEAR_SHIFT = 8 := rfl
  have e0 : ct >>> 8 = ct / 256 := Nat.shiftRight_eq_div_pow ct 8
  have sh : ∀ x : Nat, x >>> TIME_LEVEL_SHIFT = x / 64 := fun x => Nat.shiftRight_eq_div_pow x 6
  have s1 : 256 <<< TIME_LEVEL_SHIFT = 16384 := by decide
  have s2 : 16384 <<< TIME_LEVEL_SHIFT = 1048576 := by decide
  have s3 : 1048576 <<< TIME_LEVEL_SHIFT = 67108864 := by decide
  rw [m0, m3, e0]
  apply timer_shift_walk_step
  intro f1
  rw [s1, sh]
  apply timer_shift_walk_step
  intro f2
  rw [s2, sh]
  apply timer_shift_walk_step
  intro f3
  rw [s3, sh]
  exact timer_shift_walk_last ct h h32 f3 _ (by omega)

theorem timer_shift_loop_mem_walk (ct : Nat) (fuel mask time i lvl idx : Nat)
    (h : timer_shift_loop ct fuel mask time i = some (lvl, idx)) :
    ∃ p ∈ timer_shift_walk ct fuel mask time i, p.2.2 = lvl ∧ p.2.1 &&& TIME_LEVEL_MASK = idx := by
  induction fuel generalizing mask time i with
  | zero => simp [timer_shift_loop] at h
  | succ f ih =>
    simp only [timer_shift_loop] at h
    simp only [timer_shift_walk]
    split_ifs at h ⊢ with c1 c2
    · simp only [Option.some.injEq, Prod.mk.injEq] at h
      exact ⟨(mask, time, i), List.mem_cons_self _ _, h.1, h.2⟩
    · obtain ⟨p, hp, h1, h2⟩ := ih _ _ _ h
      exact ⟨p, List.mem_cons_of_mem _ hp, h1, h2⟩

theorem add_node_loop_masks (E T : Nat) :
    add_node_loop E T 3 0 (TIME_NEAR <<< TIME_LEVEL_SHIFT) =
      if (E ||| (16384 - 1)) = (T ||| (16384 - 1)) then 0
      else if (E ||| (1048576 - 1)) = (T ||| (1048576 - 1)) then 1
      else if (E ||| (67108864 - 1)) = (T ||| (67108864 - 1)) then 2
      else 3 := by
  have e1 : TIME_NEAR <<< TIME_LEVEL_SHIFT = 16384 := by decide
  have e2 : (16384 <<< TIME_LEVEL_SHIFT) % UINT32_SIZE = 1048576 := by decide
  have e3 : (1048576 <<< TIME_LEVEL_SHIFT) % UINT32_SIZE = 67108864 := by decide
  simp only [add_node_loop, e1, e2, e3]

/-- Claim C20: for every counter value `0 < ct < 2^32` the `while` loop of `timer_shift`
evaluates its condition at most 4 times, however many iterations are allowed, with masks at most
`2^26` and levels at most 3; the bucket it passes to `move_list` (also `t[3][0]` at `ct = 0`) has
level at most 3 and slot at most 63; and `add_node` indexes `near` below 256 and `t` with level
at most 3 and slot at most 63, comparing under the masks `2^14`, `2^20` and `2^26`. -/
theorem cascade_walk_bounds (ct : Nat) (h0 : ct ≠ 0) (h32 : ct < UINT32_SIZE) (fuel : Nat)
    (T : timer) (E : Nat) :
    (timer_shift_walk ct fuel TIME_NEAR (ct >>> TIME_NEAR_SHIFT) 0).length ≤ 4 ∧
    (∀ p ∈ timer_shift_walk ct fuel TIME_NEAR (ct >>> TIME_NEAR_SHIFT) 0,
      p.1 ≤ 67108864 ∧ p.1 < UINT32_SIZE ∧ p.2.2 ≤ 3) ∧
    timer_shift_loop ct (fuel + 4) TIME_NEAR (ct >>> TIME_NEAR_SHIFT) 0 =
      timer_shift_loop ct 4 TIME_NEAR (ct >>> TIME_NEAR_SHIFT) 0 ∧
    (∀ i idx, timer_shift_loop ct fuel TIME_NEAR (ct >>> TIME_NEAR_SHIFT) 0 = some (i, idx) →
      i ≤ 3 ∧ idx ≤ 63 ∧
      ∃ p ∈ timer_shift_walk ct fuel TIME_NEAR (ct >>> TIME_NEAR_SHIFT) 0,
        p.2.2 = i ∧ p.2.1 &&& TIME_LEVEL_MASK = idx) ∧
    (∀ i idx, timer_shift_target T = some (i, idx) → i ≤ 3 ∧ idx ≤ 63) ∧
    E &&& TIME_NEAR_MASK ≤ 255 ∧
    add_node_loop E T.time 3 0 (TIME_NEAR <<< TIME_LEVEL_SHIFT) ≤ 3 ∧
    (E >>> (TIME_NEAR_SHIFT + add_node_loop E T.time 3 0 (TIME_NEAR <<< TIME_LEVEL_SHIFT)
      * TIME_LEVEL_SHIFT)) &&& TIME_LEVEL_MASK ≤ 63 ∧
    add_node_loop E T.time 3 0 (TIME_NEAR <<< TIME_LEVEL_SHIFT) =
      (if (E ||| (16384 - 1)) = (T.time ||| (16384 - 1)) then 0
      else if (E ||| (1048576 - 1)) = (T.time ||| (1048576 - 1)) then 1
      else if (E ||| (67108864 - 1)) = (T.time ||| (67108864 - 1)) then 2
      else 3) := by
  have hpre := timer_shift_walk_prefix ct h0 h32 fuel
  have m1 : TIME_NEAR_MASK = 255 := by decide
  have m2 : TIME_LEVEL_MASK = 63 := by decide
  refine ⟨?_, ?_, timer_shift_loop_fuel ct h0 h32 fuel, ?_, ?_, ?_, ?_, ?_,
    add_node_loop_masks E T.time⟩
  · have := hpre.length_le
    simpa using this
  · intro p hp
    have := hpre.subset hp
    simp only [List.mem_cons, List.mem_singleton, List.not_mem_nil, or_false] at this
    unfold UINT32_SIZE
    rcases this with rfl | rfl | rfl | rfl <;> simp
  · intro i idx h
    obtain ⟨p, hp, h1, h2⟩ := timer_shift_loop_mem_walk ct fuel _ _ _ i idx h
    have hm := hpre.subset hp
    simp only [List.mem_cons, List.mem_singleton, List.not_mem_nil, or_false] at hm
    refine ⟨?_, ?_, p, hp, h1, h2⟩
    · rcases hm with rfl | rfl | rfl | rfl <;> simp at h1 <;> omega
    · rw [← h2, m2, land_63]
      omega
  · intro i idx h
    rw [timer_shift_target_eq] at h
    have := cascade_slot_valid _ _ _ h
    omega
  · rw [m1, land_255]; omega
  · rw [add_node_loop_eq]
    unfold place_level
    split_ifs <;> omega
  · rw [m2, land_63]; omega

/-! ## A cascade pushes entries down -/

/-- The placement rule sends an entry of the cascaded bucket to the near ring or to a lower
level. -/
theorem place_after_cascade (E T i idx : Nat) (hE : E < UINT32_SIZE) (hT : T < UINT32_SIZE)
    (hc : cascade_slot ((T + 1) % UINT32_SIZE) = some (i, idx))
    (hp : place E T = .level i idx) :
    place E ((T + 1) % UINT32_SIZE) = .near (E % 256) ∨
      ∃ i' j, i' < i ∧ place E ((T + 1) % UINT32_SIZE) = .level i' j := by
  unfold UINT32_SIZE at *
  have low : ∀ ct : Nat, E / 67108864 = ct / 67108864 →
      place E ct = .near (E % 256) ∨ ∃ i' j, i' < 3 ∧ place E ct = .level i' j := by
    intro ct h
    rw [place_cases]
    split_ifs with c0 c1 c2
    · exact Or.inl rfl
    · exact Or.inr ⟨0, _, by norm_num, rfl⟩
    · exact Or.inr ⟨1, _, by norm_num, rfl⟩
    · exact Or.inr ⟨2, _, by norm_num, rfl⟩
  by_cases hw : T + 1 = 4294967296
  · have hm : (T + 1) % 4294967296 = 0 := by omega
    rw [hm] at hc ⊢
    have : (i, idx) = (3, 0) := by
      have h3 : cascade_slot 0 = some (3, 0) := by decide
      rw [h3] at hc
      exact (Option.some.inj hc).symm
    injection this with e1 e2
    subst e1 e2
    rw [place_cases] at hp
    apply low
    split_ifs at hp <;> injection hp with e1 e2 <;> omega
  · have hm : (T + 1) % 4294967296 = T + 1 := by omega
    rw [hm] at hc ⊢
    rcases cascade_slot_cases (T + 1) (by omega) with ⟨c, e⟩ | ⟨c, c', e⟩ | ⟨c, c', e⟩ |
      ⟨c, c', e⟩ | ⟨c, c', e⟩ | ⟨c, e⟩
    · rw [e] at hc; cases hc
    · rw [e] at hc
      injection hc with hc
      injection hc with e1 e2
      subst e1 e2
      rw [place_cases] at hp
      have h1 : E / 256 = (T + 1) / 256 := by
        split_ifs at hp <;> injection hp with e1 e2 <;> omega
      left
      rw [place_cases, if_pos h1]
    · rw [e] at hc
      injection hc with hc
      injection hc with e1 e2
      subst e1 e2
      rw [place_cases] at hp
      have h1 : E / 16384 = (T + 1) / 16384 := by
        split_ifs at hp <;> injection hp with e1 e2 <;> omega
      rw [place_cases]
      split_ifs with c0
      · exact Or.inl rfl
      · exact Or.inr ⟨0, _, by norm_num, rfl⟩
    · rw [e] at hc
      injection hc with hc
      injection hc with e1 e2
      subst e1 e2
      rw [place_cases] at hp
      have h1 : E / 1048576 = (T + 1) / 1048576 := by
        split_ifs at hp <;> injection hp with e1 e2 <;> omega
      rw [place_cases]
      split_ifs with c0 c1
      · exact Or.inl rfl
      · exact Or.inr ⟨0, _, by norm_num, rfl⟩
      · exact Or.inr ⟨1, _, by norm_num, rfl⟩
    · rw [e] at hc
      injection hc with hc
      injection hc with e1 e2
      subst e1 e2
      rw [place_cases] at hp
      have h1 : E / 67108864 = (T + 1) / 67108864 := by
        split_ifs at hp <;> injection hp with e1 e2 <;> omega
      exact low _ h1
    · rw [e] at hc; cases hc

/-- Claim C15: in a reachable wheel, when `timer_shift` cascades the bucket `t[i][idx]`, every
entry of that bucket lands in its near slot or in a bucket of a level below `i`; none is put
back into a bucket of level `i` or above, and the cascaded bucket is empty afterwards. -/
theorem cascade_pushes_down (T : timer) (hT : Reachable T) (i idx : Nat)
    (ht : timer_shift_target T = some (i, idx)) :
    timer_shift T = move_list { T with time := (T.time + 1) % UINT32_SIZE } i idx ∧
    (timer_shift T).t i idx = [] ∧
    ∀ n ∈ T.t i idx,
      (n ∈ (timer_shift T).near (n.expire % 256) ∨
        ∃ i' j, i' < i ∧ n ∈ (timer_shift T).t i' j) ∧
      ∀ i' j, i ≤ i' → n ∉ (timer_shift T).t i' j := by
  have h := hT.wheel_inv
  rw [timer_shift_target_eq] at ht
  have lower : ∀ n ∈ T.t i idx,
      place n.expire ((T.time + 1) % UINT32_SIZE) = .near (n.expire % 256) ∨
        ∃ i' j, i' < i ∧ place n.expire ((T.time + 1) % UINT32_SIZE) = .level i' j := by
    intro n hn
    have hn' : n ∈ bucket T (.level i idx) := hn
    obtain ⟨hE, _, _, hp⟩ := h.2 _ n hn'
    exact place_after_cascade n.expire T.time i idx hE h.1 ht hp.symm
  refine ⟨?_, ?_, ?_⟩
  · rw [timer_shift_eq, ht]
  · rw [List.eq_nil_iff_forall_not_mem]
    intro n hn
    have hn' : n ∈ bucket (timer_shift T) (.level i idx) := hn
    rw [mem_bucket_timer_shift T h] at hn'
    obtain ⟨⟨s0, hn0⟩, hp⟩ := hn'
    obtain ⟨hE, h1, h2, hp0⟩ := h.2 s0 n hn0
    by_cases hs : s0 = .level i idx
    · subst hs
      rcases lower n hn0 with e | ⟨i', j, hlt, e⟩
      · rw [e] at hp; cases hp
      · rw [e] at hp
        injection hp with e1 e2
        omega
    · have := place_stay n.expire T.time h.1 h1 h2 (by
        intro i' idx' e
        rw [ht] at e
        injection e with e
        injection e with e1 e2
        subst e1 e2
        rw [← hp0]
        exact hs)
      rw [this, ← hp0] at hp
      exact hs hp.symm
  · intro n hn
    have hn' : n ∈ bucket T (.level i idx) := hn
    have hpend : pending T n := ⟨_, hn'⟩
    constructor
    · rcases lower n hn with e | ⟨i', j, hlt, e⟩
      · left
        exact (mem_bucket_timer_shift T h (.near (n.expire % 256)) n).2 ⟨hpend, e.symm⟩
      · right
        exact ⟨i', j, hlt, (mem_bucket_timer_shift T h (.level i' j) n).2 ⟨hpend, e.symm⟩⟩
    · intro i' j hle hmem
      have hp := ((mem_bucket_timer_shift T h (.level i' j) n).1 hmem).2
      rcases lower n hn with e | ⟨i'', j', hlt, e⟩
      · rw [e] at hp; cases hp
      · rw [e] at hp
        injection hp with e1 e2
        omega

/-! ## Order of entries with the same expiry -/

theorem same_expiry_add_node (T : timer) (n : timer_node) (E : Nat) :
    same_expiry (add_node T n) E = same_expiry T E ++ (if n.expire = E then [n] else []) := by
  unfold same_expiry
  rw [add_node_time, bucket_add_node]
  by_cases hE : n.expire = E
  · subst hE
    simp
  · rw [if_neg hE]
    split_ifs
    · simp [hE]
    · simp

theorem filter_expiry_eq_nil (T : timer) (h : wheel_inv T) (E : Nat) (s : slot)
    (hs : s ≠ place E T.time) :
    (bucket T s).filter (fun n => decide (n.expire = E)) = [] := by
  rw [List.filter_eq_nil_iff]
  intro n hn
  simp only [decide_eq_true_eq]
  intro e
  have hp := (h.2 s n hn).2.2.2
  rw [e] at hp
  exact hs hp

theorem same_expiry_timer_shift (T : timer) (h : wheel_inv T) (E : Nat) :
    same_expiry (timer_shift T) E = same_expiry T E := by
  unfold same_expiry
  rw [timer_shift_time]
  by_cases hex : ∃ s n, n ∈ bucket T s ∧ n.expire = E
  · obtain ⟨s0, n, hn, rfl⟩ := hex
    obtain ⟨_, h1, h2, hp⟩ := h.2 s0 n hn
    rw [timer_shift_eq]
    cases hc : cascade_slot ((T.time + 1) % UINT32_SIZE) with
    | none =>
      have hst := place_stay n.expire T.time h.1 h1 h2 (by simp [hc])
      simp only
      rw [hst]
      rfl
    | some p =>
      obtain ⟨i, idx⟩ := p
      simp only
      rw [bucket_move_list, List.filter_append, List.filter_filter]
      have hb : ∀ s, bucket { T with time := (T.time + 1) % UINT32_SIZE } s = bucket T s := by
        intro s; cases s <;> rfl
      have ht : ({ T with time := (T.time + 1) % UINT32_SIZE } : timer).t i idx =
          bucket T (.level i idx) := rfl
      rw [hb, ht]
      have hf : (bucket T (.level i idx)).filter
          (fun a => decide (a.expire = n.expire) &&
            decide (place n.expire ((T.time + 1) % UINT32_SIZE) =
              place a.expire ((T.time + 1) % UINT32_SIZE))) =
          (bucket T (.level i idx)).filter (fun a => decide (a.expire = n.expire)) := by
        apply List.filter_congr
        intro a _
        by_cases ha : a.expire = n.expire
        · simp [ha]
        · simp [ha]
      rw [hf]
      by_cases hcas : place n.expire T.time = .level i idx
      · rw [← hcas]
        have hne : place n.expire ((T.time + 1) % UINT32_SIZE) ≠ place n.expire T.time := by
          intro e
          obtain ⟨hE, _, _, _⟩ := h.2 s0 n hn
          rcases place_after_cascade n.expire T.time i idx hE h.1 hc hcas with e1 | ⟨i', j, hl, e1⟩
          · rw [e1, hcas] at e; cases e
          · rw [e1, hcas] at e
            injection e with e2 e3
            omega
        by_cases hself : place n.expire ((T.time + 1) % UINT32_SIZE) = place n.expire T.time
        · exact absurd hself hne
        · rw [if_neg hself, filter_expiry_eq_nil T h n.expire _ hself, List.nil_append]
      · have hst := place_stay n.expire T.time h.1 h1 h2 (by
          intro i' idx' e
          rw [hc] at e
          injection e with e
          injection e with e1 e2
          subst e1 e2
          exact hcas)
        rw [hst, if_neg hcas,
          filter_expiry_eq_nil T h n.expire (.level i idx) (fun e => hcas e.symm),
          List.append_nil]
  · have hnil : ∀ (T' : timer) (s : slot), (∀ n ∈ bucket T' s, pending T n) →
        (bucket T' s).filter (fun n => decide (n.expire = E)) = [] := by
      intro T' s hpend
      rw [List.filter_eq_nil_iff]
      intro n hn
      simp only [decide_eq_true_eq]
      intro e
      obtain ⟨s0, hn0⟩ := hpend n hn
      exact hex ⟨s0, n, hn0, e⟩
    rw [hnil (timer_shift T) _ (fun n hn => ((mem_bucket_timer_shift T h _ n).1 hn).1),
      hnil T _ (fun n hn => ⟨_, hn⟩)]

theorem same_expiry_timer_execute (T : timer) (E : Nat) (hE : E ≠ T.time) :
    same_expiry (timer_execute T).1 E = same_expiry T E := by
  unfold same_expiry
  rw [timer_execute_time, bucket_timer_execute]
  have : place E T.time ≠ .near (T.time % 256) := by
    intro e
    have := (place_eq_near_iff _ _ _).1 e
    omega
  rw [if_neg this]

theorem same_expiry_timer_update (T : timer) (h : wheel_inv T) (E : Nat)
    (hE : E ≠ (T.time + 1) % UINT32_SIZE) :
    same_expiry (timer_update T).1 E = same_expiry T E := by
  rw [timer_update_eq T h, same_expiry_timer_execute _ _ (by rw [timer_shift_time]; exact hE),
    same_expiry_timer_shift T h]

theorem dispatch_list_eq_map (l : List timer_node) :
    dispatch_list l = l.map (fun n => ⟨n.event.handle, ⟨0, n.event.session⟩, n⟩) := by
  induction l with
  | nil => rfl
  | cons x xs ih => simp [dispatch_list, ih]

theorem timer_update_out_eq (T : timer) (h : wheel_inv T) :
    (timer_update T).2 = dispatch_list (same_expiry T ((T.time + 1) % UINT32_SIZE)) := by
  have hlt : (T.time + 1) % UINT32_SIZE < UINT32_SIZE := Nat.mod_lt _ (by decide)
  have hpl : place ((T.time + 1) % UINT32_SIZE) ((T.time + 1) % UINT32_SIZE) =
      .near ((T.time + 1) % UINT32_SIZE % 256) := (place_eq_near_iff _ _ _).2 ⟨rfl, rfl⟩
  have key : same_expiry (timer_shift T) ((T.time + 1) % UINT32_SIZE) =
      (timer_shift T).near ((T.time + 1) % UINT32_SIZE % 256) := by
    unfold same_expiry
    rw [timer_shift_time, hpl]
    show _ = bucket (timer_shift T) (.near ((T.time + 1) % UINT32_SIZE % 256))
    rw [List.filter_eq_self]
    intro n hn
    simp only [decide_eq_true_eq]
    have hm := (mem_bucket_timer_shift T h _ n).1 hn
    obtain ⟨⟨s0, hn0⟩, hp⟩ := hm
    have hE := (h.2 s0 n hn0).1
    have := (place_eq_near_iff _ _ _).1 hp.symm
    unfold UINT32_SIZE at *
    omega
  rw [← same_expiry_timer_shift T h, key, timer_update_eq T h, timer_execute_eq,
    timer_shift_time]

theorem same_expiry_skynet_timeout (push : Nat → skynet_message → Int) (T : timer)
    (handle : Nat) (time session : Int) (E : Nat) (l : List timer_node)
    (h : l.Sublist (same_expiry T E)) :
    l.Sublist (same_expiry (skynet_timeout push T handle time session).2.1 E) := by
  rw [skynet_timeout_wheel]
  split_ifs
  · exact h
  · unfold timer_add
    rw [same_expiry_add_node]
    exact h.trans (List.sublist_append_left _ _)

/-- Entries with expiry `E` keep their order in the wheel while fewer update cycles run than the
expiry is ahead. -/
theorem same_expiry_run_ops (ops : List op) (hv : ∀ o ∈ ops, o.valid) (T : timer)
    (h : wheel_inv T) (E : Nat) (hE : E < UINT32_SIZE) (l : List timer_node)
    (hl : l.Sublist (same_expiry T E)) (hc : count_updates ops < remaining E T.time) :
    wheel_inv (run_ops ops T) ∧ l.Sublist (same_expiry (run_ops ops T) E) ∧
      remaining E (run_ops ops T).time + count_updates ops = remaining E T.time ∧
      (run_ops ops T).time = (T.time + count_updates ops) % UINT32_SIZE := by
  induction ops generalizing T with
  | nil =>
    refine ⟨h, hl, rfl, ?_⟩
    simp only [run_ops, count_updates, Nat.add_zero]
    exact (Nat.mod_eq_of_lt h.1).symm
  | cons o rest ih =>
    have hv' : ∀ o ∈ rest, o.valid := fun o ho => hv o (List.mem_cons_of_mem _ ho)
    cases o with
    | timeout push handle time session =>
      have hval : 0 ≤ time ∧ time < 2147483648 := hv _ (List.mem_cons_self _ _)
      have h' := wheel_inv_skynet_timeout push T h handle time session hval.1 hval.2
      have hl' := same_expiry_skynet_timeout push T handle time session E l hl
      have ht := skynet_timeout_time push T handle time session
      have := ih hv' _ h' hl' (by rw [ht]; exact hc)
      simp only [run_ops, count_updates]
      rw [ht] at this
      exact this
    | update =>
      simp only [count_updates] at hc
      have h' := wheel_inv_timer_update T h
      have ht := timer_update_time T
      have hr := remaining_succ E T.time hE (by omega)
      have hne : E ≠ (T.time + 1) % UINT32_SIZE := by
        intro e
        have hlt := h.1
        unfold remaining UINT32_SIZE at *
        omega
      have hl' : l.Sublist (same_expiry (timer_update T).1 E) := by
        rw [same_expiry_timer_update T h E hne]
        exact hl
      have := ih hv' _ h' hl' (by rw [ht]; omega)
      simp only [run_ops, count_updates]
      rw [ht] at this
      refine ⟨this.1, this.2.1, by omega, ?_⟩
      rw [this.2.2.2]
      unfold UINT32_SIZE
      omega

/-- Claim C18: in a reachable wheel, let a first entry be submitted with delay `d1`, then after
operations `ops1` a second entry with delay `d2` and the same expiry (`d1` is `d2` plus the
update cycles of `ops1`).  Whatever valid operations `ops2` follow, the update cycle in which the
expiry is reached dispatches the first entry before the second one. -/
theorem same_expiry_fifo (T : timer) (hT : Reachable T)
    (push1 push2 : Nat → skynet_message → Int) (handle1 handle2 : Nat) (session1 session2 : Int)
    (d1 d2 : Nat) (ops1 ops2 : List op) (hv1 : ∀ o ∈ ops1, o.valid) (hv2 : ∀ o ∈ ops2, o.valid)
    (hd1 : d1 < 2147483648) (hd2 : 0 < d2) (hsame : d1 = count_updates ops1 + d2)
    (hfire : count_updates ops2 + 1 = d2) :
    ((run_ops ops1 (skynet_timeout push1 T handle1 d1 session1).2.1).time + d2) % UINT32_SIZE =
      (T.time + d1) % UINT32_SIZE ∧
    List.Sublist
      [(⟨handle1, ⟨0, session1⟩, ⟨(T.time + d1) % UINT32_SIZE, ⟨handle1, session1⟩⟩⟩ : dispatch),
        ⟨handle2, ⟨0, session2⟩, ⟨(T.time + d1) % UINT32_SIZE, ⟨handle2, session2⟩⟩⟩]
      (timer_update (run_ops ops2
        (skynet_timeout push2 (run_ops ops1 (skynet_timeout push1 T handle1 d1 session1).2.1)
          handle2 d2 session2).2.1)).2 := by
  have h := hT.wheel_inv
  have hE : (T.time + d1) % UINT32_SIZE < UINT32_SIZE := Nat.mod_lt _ (by decide)
  -- after the first submission
  have ha := wheel_inv_skynet_timeout push1 T h handle1 d1 session1 (by omega) (by omega)
  have hta := skynet_timeout_time push1 T handle1 d1 session1
  have hla : [(⟨(T.time + d1) % UINT32_SIZE, ⟨handle1, session1⟩⟩ : timer_node)].Sublist
      (same_expiry (skynet_timeout push1 T handle1 d1 session1).2.1
        ((T.time + d1) % UINT32_SIZE)) := by
    rw [skynet_timeout_wheel, if_neg (by omega), timer_add_eq, same_expiry_add_node, if_pos rfl]
    exact List.sublist_append_right _ _
  have hra := remaining_add T.time d1 h.1 (by unfold UINT32_SIZE; omega)
  -- after `ops1`
  obtain ⟨hb, hlb, hrb, htb⟩ := same_expiry_run_ops ops1 hv1 _ ha _ hE _ hla
    (by rw [hta, hra]; omega)
  rw [hta] at hrb htb
  rw [hra] at hrb
  have hexp : ((run_ops ops1 (skynet_timeout push1 T handle1 d1 session1).2.1).time + d2)
      % UINT32_SIZE = (T.time + d1) % UINT32_SIZE := by
    rw [htb]
    unfold UINT32_SIZE
    omega
  refine ⟨hexp, ?_⟩
  -- after the second submission
  have hc := wheel_inv_skynet_timeout push2 _ hb handle2 d2 session2 (by omega) (by omega)
  have htc := skynet_timeout_time push2
    (run_ops ops1 (skynet_timeout push1 T handle1 d1 session1).2.1) handle2 d2 session2
  have hlc : [(⟨(T.time + d1) % UINT32_SIZE, ⟨handle1, session1⟩⟩ : timer_node),
      ⟨(T.time + d1) % UINT32_SIZE, ⟨handle2, session2⟩⟩].Sublist
      (same_expiry (skynet_timeout push2
        (run_ops ops1 (skynet_timeout push1 T handle1 d1 session1).2.1)
          handle2 d2 session2).2.1 ((T.time + d1) % UINT32_SIZE)) := by
    rw [skynet_timeout_wheel, if_neg (by omega), timer_add_eq, same_expiry_add_node, hexp,
      if_pos rfl]
    exact List.Sublist.append hlb (List.Sublist.refl _)
  -- after `ops2`
  obtain ⟨hd, hld, hrd, htd⟩ := same_expiry_run_ops ops2 hv2 _ hc _ hE _ hlc
    (by rw [htc]; omega)
  rw [htc] at hrd htd
  have hnow : (T.time + d1) % UINT32_SIZE =
      ((run_ops ops2 (skynet_timeout push2
        (run_ops ops1 (skynet_timeout push1 T handle1 d1 session1).2.1)
          handle2 d2 session2).2.1).time + 1) % UINT32_SIZE := by
    rw [htd, htb]
    unfold UINT32_SIZE
    omega
  rw [timer_update_out_eq _ hd, ← hnow, dispatch_list_eq_map]
  have := hld.map (fun n : timer_node =>
    (⟨n.event.handle, ⟨0, n.event.session⟩, n⟩ : dispatch))
  simpa using this

/-! ## Further instances of the theorems that carry hypotheses -/

theorem clock_regression_witness :
    3 < (skynet_timer_init 0 0 5).current_point ∧
    (skynet_updatetime (skynet_timer_init 0 0 5) 3).2 = [] ∧
    (skynet_updatetime (skynet_timer_init 0 0 5) 3).1.current_point = 3 :=
  ⟨by decide, (clock_regression (skynet_timer_init 0 0 5) 3 (by decide)).2.1,
    (clock_regression (skynet_timer_init 0 0 5) 3 (by decide)).2.2.2.2.2.2.2⟩

theorem counter_wraparound_witness :
    UINT32_SIZE ≤ (skynet_timer_init 0 4294967295 0).current +
      (1 - (skynet_timer_init 0 4294967295 0).current_point) ∧
    (skynet_updatetime (skynet_timer_init 0 4294967295 0) 1).1.starttime =
      ((skynet_timer_init 0 4294967295 0).starttime + 42949672) % UINT32_SIZE :=
  ⟨by decide,
    (counter_wraparound (skynet_timer_init 0 4294967295 0) 1 (by decide) (by decide)
      (by decide)).2.1 (by decide)⟩

theorem timer_shift_selection_witness :
    ∃ i, i < 4 ∧ (((255 + 1) % UINT32_SIZE) >>> (8 + 6 * i)) % 64 ≠ 0 ∧
      (∀ j, j < i → (((255 + 1) % UINT32_SIZE) >>> (8 + 6 * j)) % 64 = 0) ∧
      timer_shift { timer_create_timer with time := 255 } =
        move_list { timer_create_timer with time := (255 + 1) % UINT32_SIZE } i
          ((((255 + 1) % UINT32_SIZE) >>> (8 + 6 * i)) % 64) :=
  (timer_shift_selection { timer_create_timer with time := 255 }).2.2.2.1 (by decide) (by decide)

theorem sample_shift_target :
    timer_shift_target (skynet_timeout (fun _ _ => 0)
      (skynet_updatetime (skynet_timer_init 0 0 0) 255).1 7 ((2 : Nat) : Int) 9).2.1 =
        some (0, 1) := by
  rw [timer_shift_target_eq, skynet_timeout_time,
    init_updatetime_time 255 (by decide) (by decide)]
  decide

theorem cascade_pushes_down_witness :
    (timer_shift (skynet_timeout (fun _ _ => 0)
      (skynet_updatetime (skynet_timer_init 0 0 0) 255).1 7 ((2 : Nat) : Int) 9).2.1).t 0 1 = [] :=
  (cascade_pushes_down _
    (Reachable.timeout _ _ 7 _ 9 (Reachable.updatetime _ 255 (Reachable.init 0 0 0))
      (by decide) (by decide)) 0 1 sample_shift_target).2.1

theorem near_test_same_block_witness :
    ¬ ((((255 + 1) % UINT32_SIZE) ||| TIME_NEAR_MASK) = (255 ||| TIME_NEAR_MASK)) :=
  fun e => absurd ((near_test_same_block { timer_create_timer with time := 255 } ⟨7, 9⟩ 1
    (by decide) (by decide)).1.1 e) (by decide)

theorem same_expiry_fifo_witness :
    List.Sublist
      [(⟨7, ⟨0, 9⟩,
          ⟨((skynet_updatetime (skynet_timer_init 0 0 0) 255).1.time + 2) % UINT32_SIZE,
            ⟨7, 9⟩⟩⟩ : dispatch),
        ⟨8, ⟨0, 10⟩,
          ⟨((skynet_updatetime (skynet_timer_init 0 0 0) 255).1.time + 2) % UINT32_SIZE,
            ⟨8, 10⟩⟩⟩]
      (timer_update (run_ops []
        (skynet_timeout (fun _ _ => 0) (run_ops [op.update]
          (skynet_timeout (fun _ _ => 0) (skynet_updatetime (skynet_timer_init 0 0 0) 255).1
            7 ((2 : Nat) : Int) 9).2.1) 8 ((1 : Nat) : Int) 10).2.1)).2 :=
  (same_expiry_fifo (skynet_updatetime (skynet_timer_init 0 0 0) 255).1
    (Reachable.updatetime _ 255 (Reachable.init 0 0 0)) (fun _ _ => 0) (fun _ _ => 0) 7 8 9 10
    2 1 [op.update] [] (valid_updates 1) (valid_updates 0) (by decide) (by decide) (by decide)
    (by decide)).2

theorem skipped_slots_empty_witness :
    Reachable sample_wheel ∧ sample_wheel.t 0 0 = [] ∧ sample_wheel.t 1 0 = [] :=
  ⟨reachable_sample_wheel, (skipped_slots_empty sample_wheel reachable_sample_wheel).1,
    (skipped_slots_empty sample_wheel reachable_sample_wheel).2.1⟩

theorem cascade_walk_bounds_witness :
    (256 : Nat) ≠ 0 ∧ 256 < UINT32_SIZE ∧
    (timer_shift_walk 256 10 TIME_NEAR (256 >>> TIME_NEAR_SHIFT) 0).length ≤ 4 :=
  ⟨by decide, by decide,
    (cascade_walk_bounds 256 (by decide) (by decide) 10 timer_create_timer 0).1⟩

end SkynetTimer
